import Mathlib

/-!
Verification of the multipart stream parser (src/multipart-stream.js).

The JavaScript source is shallowly embedded: byte buffers become `List Nat`,
JavaScript numbers used as indices/lengths become `Int` (they stay far below
2^53 in every run considered, so exact integer arithmetic is faithful),
JavaScript strings become Lean `String` (operated on character-wise; all
searched-for characters are ASCII, for which code-unit and scalar indexing
coincide on the observable results), and the platform pieces the code calls
into (`TextDecoder`/`TextEncoder`, `Headers`, `parseInt`, `Array.prototype`
index clamping) are modelled explicitly below with their WHATWG / ECMAScript
semantics.

All recursion is structural or fuel-based so that every definition is
executable and concrete runs reduce by `decide` / `rfl`.
-/

namespace Multipart

/-! ## JavaScript primitive models -/

/-- Model of `TypedArray.prototype.slice(begin, end)` index clamping:
a negative index counts from the end of the array (clamped at 0), a large
index is clamped to the length. -/
def clampIdx (len : Nat) (i : Int) : Nat :=
  if i < 0 then ((len : Int) + i).toNat else min i.toNat len

/-- Model of `buf.slice(s, e)` on a `Uint8Array`. -/
def jsSlice (buf : List Nat) (s e : Int) : List Nat :=
  let s' := clampIdx buf.length s
  let e' := clampIdx buf.length e
  (buf.drop s').take (e' - s')

/-- Model of `buf[i]` on a `Uint8Array`: out-of-range access yields
`undefined`, modelled as `none`. -/
def jsGetI (buf : List Nat) (i : Int) : Option Nat :=
  if i < 0 then none else buf.get? i.toNat

/-- Model of `buf.indexOf(b, start)` on a `Uint8Array`: a negative start
counts from the end (clamped at 0); the result is the absolute index of the
first occurrence at or after the start position, or `-1`. -/
def jsIndexOf (buf : List Nat) (b : Nat) (start : Int) : Int :=
  let st : Nat := if start < 0 then ((buf.length : Int) + start).toNat else start.toNat
  match (buf.drop st).findIdx? (fun x => x = b) with
  | none => -1
  | some j => (st : Int) + (j : Int)

/-- Model of `String.prototype.substring(a, b)`: negative and `NaN` arguments
clamp to 0, large ones to the length, and the two clamped endpoints are
swapped if out of order. -/
def jsSubstring (s : String) (a b : Int) : String :=
  let ca := min (a.toNat) s.data.length
  let cb := min (b.toNat) s.data.length
  let lo := min ca cb
  let hi := max ca cb
  String.mk ((s.data.drop lo).take (hi - lo))

/-- Model of `line[i]` on a string: out-of-range yields `undefined` (`none`). -/
def jsCharAt (s : String) (i : Int) : Option Char :=
  if i < 0 then none else s.data.get? i.toNat

/-- Model of `line.indexOf(c)` on a string, returning `-1` when absent. -/
def strIndexOf (s : String) (c : Char) : Int :=
  match s.data.findIdx? (fun x => x = c) with
  | none => -1
  | some i => (i : Int)

/-! ### UTF-8 encoding (`TextEncoder`) -/

/-- UTF-8 encoding of one Unicode scalar value. -/
def encChar (c : Char) : List Nat :=
  let n := c.toNat
  if n < 0x80 then [n]
  else if n < 0x800 then [0xC0 + n / 0x40, 0x80 + n % 0x40]
  else if n < 0x10000 then
    [0xE0 + n / 0x1000, 0x80 + n / 0x40 % 0x40, 0x80 + n % 0x40]
  else
    [0xF0 + n / 0x40000, 0x80 + n / 0x1000 % 0x40, 0x80 + n / 0x40 % 0x40, 0x80 + n % 0x40]

/-- Model of `TextEncoder.encode`. -/
def utf8Bytes (s : String) : List Nat :=
  (s.data.map encChar).flatten

/-! ### UTF-8 decoding (`TextDecoder('utf-8')`, non-fatal, BOM-stripping) -/

/-- Is a byte a valid UTF-8 continuation byte? -/
def contOk (b : Nat) : Bool :=
  0x80 ≤ b ∧ b ≤ 0xBF

/-- The U+FFFD replacement character emitted by a non-fatal `TextDecoder`. -/
def replChar : Char := Char.ofNat 0xFFFD

/-- Second-byte lower bound for a UTF-8 lead byte (WHATWG decoder). -/
def utf8Lo (b : Nat) : Nat :=
  if b = 0xE0 then 0xA0 else if b = 0xF0 then 0x90 else 0x80

/-- Second-byte upper bound for a UTF-8 lead byte (WHATWG decoder). -/
def utf8Hi (b : Nat) : Nat :=
  if b = 0xED then 0x9F else if b = 0xF4 then 0x8F else 0xBF

/-- Fuel-driven WHATWG UTF-8 decoder with replacement on error: on a
malformed byte the decoder emits U+FFFD and resumes at the offending byte. -/
def decAux : Nat → List Nat → List Char
  | 0, _ => []
  | _, [] => []
  | fuel+1, b :: rest =>
    if b < 0x80 then Char.ofNat b :: decAux fuel rest
    else if 0xC2 ≤ b ∧ b ≤ 0xDF then
      match rest with
      | [] => [replChar]
      | b1 :: r1 =>
        if contOk b1 then Char.ofNat ((b - 0xC0) * 0x40 + (b1 - 0x80)) :: decAux fuel r1
        else replChar :: decAux fuel rest
    else if 0xE0 ≤ b ∧ b ≤ 0xEF then
      match rest with
      | [] => [replChar]
      | b1 :: r1 =>
        if utf8Lo b ≤ b1 ∧ b1 ≤ utf8Hi b then
          match r1 with
          | [] => [replChar]
          | b2 :: r2 =>
            if contOk b2 then
              Char.ofNat ((b - 0xE0) * 0x1000 + (b1 - 0x80) * 0x40 + (b2 - 0x80)) :: decAux fuel r2
            else replChar :: decAux fuel r1
        else replChar :: decAux fuel rest
    else if 0xF0 ≤ b ∧ b ≤ 0xF4 then
      match rest with
      | [] => [replChar]
      | b1 :: r1 =>
        if utf8Lo b ≤ b1 ∧ b1 ≤ utf8Hi b then
          match r1 with
          | [] => [replChar]
          | b2 :: r2 =>
            if contOk b2 then
              match r2 with
              | [] => [replChar]
              | b3 :: r3 =>
                if contOk b3 then
                  Char.ofNat ((b - 0xF0) * 0x40000 + (b1 - 0x80) * 0x1000 +
                    (b2 - 0x80) * 0x40 + (b3 - 0x80)) :: decAux fuel r3
                else replChar :: decAux fuel r2
            else replChar :: decAux fuel r1
        else replChar :: decAux fuel rest
    else replChar :: decAux fuel rest

/-- Model of `TextDecoder('utf-8').decode` (non-fatal; strips a leading BOM). -/
def utf8Decode (bytes : List Nat) : String :=
  let body := if bytes.take 3 = [0xEF, 0xBB, 0xBF] then bytes.drop 3 else bytes
  String.mk (decAux body.length body)

/-! ### `parseInt(s, 10)` -/

/-- ECMAScript StrWhiteSpace characters skipped by `parseInt`. -/
def jsWsChar (c : Char) : Bool :=
  let n := c.toNat
  n = 0x09 ∨ n = 0x0A ∨ n = 0x0B ∨ n = 0x0C ∨ n = 0x0D ∨ n = 0x20 ∨ n = 0xA0 ∨
  n = 0x1680 ∨ (0x2000 ≤ n ∧ n ≤ 0x200A) ∨ n = 0x2028 ∨ n = 0x2029 ∨
  n = 0x202F ∨ n = 0x205F ∨ n = 0x3000 ∨ n = 0xFEFF

/-- Numeric value of a list of decimal digit characters. -/
def digitsVal (l : List Char) : Nat :=
  l.foldl (fun a c => a * 10 + (c.toNat - 48)) 0

/-- Longest leading run of decimal digits, interpreted in base 10; `none`
when there is no leading digit. -/
def leadDigits (l : List Char) : Option Nat :=
  let d := l.takeWhile (fun c => c.isDigit)
  if d = [] then none else some (digitsVal d)

/-- Model of `parseInt(s, 10)` on a character list: skip whitespace, take an
optional sign, then the longest digit run; no digits means `NaN` (`none`). -/
def jsParseIntChars (l : List Char) : Option Int :=
  match l.dropWhile jsWsChar with
  | [] => none
  | c :: r =>
    if c = '-' then
      match leadDigits r with
      | none => none
      | some n => some (-(n : Int))
    else if c = '+' then
      match leadDigits r with
      | none => none
      | some n => some ((n : Int))
    else
      match leadDigits (c :: r) with
      | none => none
      | some n => some ((n : Int))

/-- Model of `parseInt(x, 10)` where `x` is `headers.get(...)`: a `null`
argument stringifies to `"null"`, which parses to `NaN` (`none`). -/
def jsParseInt10 (s : Option String) : Option Int :=
  match s with
  | none => none
  | some s => jsParseIntChars s.data

/-! ### The `Headers` platform class

The fetch specification stores a header list: an ordered list of
(name, value) pairs.  `append` validates the name (nonempty HTTP token)
and the value (a ByteString that, after stripping leading/trailing HTTP
whitespace, contains no NUL/CR/LF), throwing `TypeError` otherwise, and
pushes the pair (with the normalized value) at the end.  `get` joins the
values of all entries whose name matches case-insensitively with ", ",
returning `null` when there are none. -/

/-- HTTP token code points (legal header-name characters). -/
def httpTokenChar (c : Char) : Bool :=
  c.isAlphanum ∨
  c ∈ ['!', '#', '$', '%', '&', '\'', '*', '+', '-', '.', '^', '_', '`', '|', '~']

/-- HTTP whitespace stripped from header values by `normalize`. -/
def httpWsChar (c : Char) : Bool :=
  c = ' ' ∨ c = '\t' ∨ c = '\n' ∨ c = '\r'

/-- Strip leading and trailing HTTP whitespace from a header value. -/
def normalizeValue (v : String) : String :=
  String.mk (((v.data.dropWhile httpWsChar).reverse.dropWhile httpWsChar).reverse)

/-- A header value is legal if it fits in a ByteString and its normalized
form has no NUL, CR or LF. -/
def validHeaderValue (v : String) : Bool :=
  v.data.all (fun c => c.toNat ≤ 0xFF) ∧
  (normalizeValue v).data.all (fun c => c.toNat ≠ 0 ∧ c.toNat ≠ 10 ∧ c.toNat ≠ 13)

/-- A header name is legal if it is a nonempty HTTP token. -/
def validHeaderName (n : String) : Bool :=
  n.data ≠ [] ∧ n.data.all httpTokenChar

/-- ASCII lowercasing used for the case-insensitive header-name match. -/
def asciiLower (s : String) : String :=
  String.mk (s.data.map Char.toLower)

/-- The ordered header list owned by a `Headers` object. -/
abbrev HList := List (String × String)

/-- Model of `headers.append(name, value)`: `none` models the `TypeError`
thrown on an illegal name or value. -/
def headersAppend (name value : String) (hs : HList) : Option HList :=
  if validHeaderName name ∧ validHeaderValue value then
    some (hs ++ [(name, normalizeValue value)])
  else
    none

/-- Model of `headers.get(name)`. -/
def headersGet (name : String) (hs : HList) : Option String :=
  let t := asciiLower name
  let vs := (hs.filter (fun p => asciiLower p.1 = t)).map (fun p => p.2)
  match vs with
  | [] => none
  | _ => some (String.intercalate ", " vs)

/-! ## The source functions -/

/-- `compareArrays` from the source: element-wise equality of two arrays. -/
def compareArrays (a b : List Nat) : Bool :=
  a == b

/-- Helper scanning for the first occurrence of `pat` in `l` at an index
at or after `i` (fuel-driven scan). -/
def idxOfFromAux (pat l : List Char) : Nat → Nat → Option Nat
  | 0, _ => none
  | fuel+1, i =>
    if i + pat.length ≤ l.length then
      if (l.drop i).take pat.length = pat then some i
      else idxOfFromAux pat l fuel (i + 1)
    else none

/-- Model of `s.indexOf(pat, start)` for a string pattern: index of the first
occurrence starting at or after `start`, or `none`. -/
def idxOfFrom (pat l : List Char) (start : Nat) : Option Nat :=
  idxOfFromAux pat l (l.length + 1) start

/-- `getBoundary` from the source: requires the `multipart/` front, finds the
first `; boundary=` at or after index 10, and returns the verbatim remainder. -/
def getBoundary (contentType : String) : Option String :=
  if contentType.data.take ("multipart/".data).length = "multipart/".data then
    match idxOfFrom "; boundary=".data contentType.data ("multipart/".data).length with
    | none => none
    | some i =>
      some (String.mk (contentType.data.drop (i + ("; boundary=".data).length)))
  else none

/-! ## The parser state machine (`processBuf`) -/

/-- The three parser states of the source (`STATE_BOUNDARY`, `STATE_HEADERS`,
`STATE_BODY`). -/
inductive JState where
  | boundary
  | headers
  | body
deriving DecidableEq, Repr

/-- An emitted `{headers, body}` record. -/
structure Part where
  headers : HList
  body : List Nat
deriving DecidableEq, Repr

/-- The mutable parser variables of `multipartStream`'s `start` closure. -/
structure PMachine where
  state : JState
  headers : Option HList
  contentLength : Option Int
  buf : List Nat
  pos : Int
deriving DecidableEq, Repr

/-- The two boundary byte strings derived once from the boundary token. -/
structure Boundaries where
  mid : List Nat
  endB : List Nat
deriving DecidableEq, Repr

/-- Errors thrown inside `processBuf`.  `malformedHeaderLine` covers both
`bad part header line` throws of the source; `headerTypeError` is the
`TypeError` the `Headers` class throws from `headers.append` on an illegal
name or value; `nullDeref` marks the (unreachable) use of a `null`
`headers` in `STATE_HEADERS`. -/
inductive PErr where
  | malformedBoundary
  | malformedHeaderLine
  | invalidContentLength
  | headerTypeError
  | nullDeref
deriving DecidableEq, Repr

/-- The blank-line-skipping `while` loop at the top of `STATE_BOUNDARY`
(fuel-driven; the fuel below always suffices since each iteration needs
`pos + 2 ≤ buf.length` and advances `pos` by 2). -/
def skipBlanksF : Nat → List Nat → Int → Int
  | 0, _, p => p
  | fuel+1, buf, p =>
    if (buf.length : Int) ≥ p + 2 ∧ compareArrays (jsSlice buf p (p + 2)) [13, 10] then
      skipBlanksF fuel buf (p + 2)
    else p

/-- Skip leading `\r\n` pairs starting at cursor `p`. -/
def skipBlanks (buf : List Nat) (p : Int) : Int :=
  skipBlanksF (((buf.length : Int) + 2 - p).toNat) buf p

/-- Result of one iteration of the `while (true)` loop in `processBuf`:
suspend (`return`), one state-machine transition (`break` of the `switch`,
optionally enqueuing a part), or a thrown error. -/
inductive StepRes where
  | suspend (m : PMachine)
  | cont (m : PMachine) (out : Option Part)
  | fail (e : PErr)
deriving DecidableEq, Repr

/-- One iteration of `processBuf`'s loop, translated case by case from the
`switch (state)` of the source. -/
def stepOnce (cfg : Boundaries) (m : PMachine) : StepRes :=
  match m.state with
  | .boundary =>
    let p := skipBlanks m.buf m.pos
    if (m.buf.length : Int) < p + cfg.mid.length then
      .suspend { m with pos := p }
    else if compareArrays (jsSlice m.buf p (p + cfg.mid.length)) cfg.mid then
      .cont { m with pos := p + cfg.mid.length, state := .headers, headers := some [] } none
    else if compareArrays (jsSlice m.buf p (p + cfg.endB.length)) cfg.endB then
      .suspend { m with state := .boundary, pos := p + cfg.endB.length }
    else
      .fail .malformedBoundary
  | .headers =>
    let cr := jsIndexOf m.buf 13 m.pos
    if cr = -1 ∨ (m.buf.length : Int) = cr + 1 then
      .suspend m
    else if jsGetI m.buf (cr + 1) ≠ some 10 then
      .fail .malformedHeaderLine
    else
      let line := utf8Decode (jsSlice m.buf m.pos cr)
      let pos' := cr + 2
      m.headers.elim (.fail .nullDeref) (fun hdrs =>
        if line = "" then
          (jsParseInt10 (headersGet "Content-Length" hdrs)).elim (.fail .invalidContentLength)
            (fun n => .cont { m with pos := pos', state := .body, contentLength := some n } none)
        else
          let colon := strIndexOf line ':'
          let name := jsSubstring line 0 colon
          if colon = (line.data.length : Int) ∨ jsCharAt line (colon + 1) ≠ some ' ' then
            .fail .malformedHeaderLine
          else
            let value := jsSubstring line (colon + 2) (line.data.length : Int)
            (headersAppend name value hdrs).elim (.fail .headerTypeError)
              (fun hs => .cont { m with pos := pos', headers := some hs } none))
  | .body =>
    m.contentLength.elim (.fail .nullDeref) (fun c =>
      if (m.buf.length : Int) < m.pos + c then
        .suspend m
      else
        let b := jsSlice m.buf m.pos (m.pos + c)
        .cont
          { m with pos := m.pos + c, state := .boundary, headers := none, contentLength := none }
          (some ⟨m.headers.getD [], b⟩))

/-- How a `processBuf` invocation finished: a normal `return` leaving the
machine suspended, or a thrown error. -/
inductive DrainEnd where
  | more (m : PMachine)
  | fail (e : PErr)
deriving DecidableEq, Repr

/-- `processBuf` from the source: iterate `stepOnce` until suspension or an
error, collecting the parts enqueued on the way.  `none` means the fuel ran
out (the loop genuinely diverges on some inputs, see `c4` commentary). -/
def processBuf (cfg : Boundaries) : Nat → PMachine → Option (List Part × DrainEnd)
  | 0, _ => none
  | fuel+1, m =>
    match stepOnce cfg m with
    | .suspend m' => some ([], .more m')
    | .fail e => some ([], .fail e)
    | .cont m' out =>
      match processBuf cfg fuel m' with
      | none => none
      | some (ps, e) => some (out.toList ++ ps, e)

/-! ## The read loop of `multipartStream` -/

/-- Rebuild the buffer after `reader.read()` returned a data chunk: if the
old buffer is fully consumed the chunk replaces it, otherwise the pending
tail and the chunk are copied into a fresh zero-initialized buffer (the
replicate term models the zero gap `newBuf.set` leaves when the slice is
shorter than `buffered`; with the invariant `pos ≤ buf.length` it is empty). -/
def feed (m : PMachine) (chunk : List Nat) : PMachine :=
  let buffered : Int := (m.buf.length : Int) - m.pos
  if buffered = 0 then
    { m with buf := chunk, pos := 0 }
  else
    let tail := jsSlice m.buf m.pos (m.buf.length : Int)
    { m with buf := tail ++ List.replicate (buffered.toNat - tail.length) 0 ++ chunk, pos := 0 }

/-- The end-of-source trimming loop: advance the cursor while the byte under
it is LF or CR (fuel-driven; one byte per iteration). -/
def trimNlF : Nat → List Nat → Int → Int
  | 0, _, p => p
  | fuel+1, buf, p =>
    if (buf.length : Int) - p > 0 ∧ (jsGetI buf p = some 10 ∨ jsGetI buf p = some 13) then
      trimNlF fuel buf (p + 1)
    else p

/-- Trim trailing newline bytes at end-of-source. -/
def trimNewlines (buf : List Nat) (p : Int) : Int :=
  trimNlF ((buf.length : Int) - p).toNat buf p

/-- Errors that terminate the output stream. -/
inductive TopErr where
  | parseErr (e : PErr)
  | truncatedStream
  | invalidContentType
deriving DecidableEq, Repr

/-- How the output stream terminated. -/
inductive Outcome where
  | closed
  | errored (e : TopErr)
  | fuelOut
deriving DecidableEq, Repr

/-- The `while (true)` read loop of `multipartStream`: the chunk list models
the successive values of `reader.read()` with `done` after the last one;
each data chunk is appended to the buffer and drained with `processBuf`. -/
def runFrom (cfg : Boundaries) (fuel : Nat) : PMachine → List (List Nat) → List Part × Outcome
  | m, [] =>
    let p := trimNewlines m.buf m.pos
    if m.state = .boundary ∧ ¬ ((m.buf.length : Int) - p > 0) then ([], .closed)
    else ([], .errored .truncatedStream)
  | m, c :: cs =>
    match processBuf cfg fuel (feed m c) with
    | none => ([], .fuelOut)
    | some (ps, .fail e) => (ps, .errored (.parseErr e))
    | some (ps, .more m') =>
      let r := runFrom cfg fuel m' cs
      (ps ++ r.1, r.2)

/-- The initial parser variables. -/
def initMachine : PMachine :=
  ⟨.boundary, none, none, [], 0⟩

/-- The mid-boundary bytes for a token. -/
def midBytes (tok : String) : List Nat :=
  utf8Bytes ("--" ++ tok ++ "\r\n")

/-- The end-boundary bytes for a token. -/
def endBytes (tok : String) : List Nat :=
  utf8Bytes ("--" ++ tok ++ "--")

/-- The boundary byte strings `midBoundary` / `endBoundary` computed in
`start` from the boundary token. -/
def mkBoundaries (b : String) : Boundaries :=
  ⟨midBytes b, endBytes b⟩

/-- `multipartStream` end to end: extract the boundary from the content type
(erroring out before any read if that fails), then run the read loop. -/
def runMultipart (contentType : String) (fuel : Nat) (chunks : List (List Nat)) :
    List Part × Outcome :=
  match getBoundary contentType with
  | none => ([], .errored .invalidContentType)
  | some b => runFrom (mkBoundaries b) fuel initMachine chunks

/-- The sign-and-whitespace stripping phase of `parseInt`, used to state
when `parseInt` yields `NaN`. -/
def afterSign (l : List Char) : List Char :=
  match l.dropWhile jsWsChar with
  | [] => []
  | c :: r => if c = '-' ∨ c = '+' then r else c :: r

/-! ## Tail-level view of the machine

For a machine with `0 ≤ pos ≤ buf.length`, everything `processBuf` and the
read loop do depends only on the unconsumed tail `buf.drop pos.toNat` (and
the structural fields).  The tail-level machine below makes this explicit;
a simulation links it to the faithful machine, and the chunk-invariance
argument is carried out at the tail level, where list reasoning is direct.
The one behaviour the tail view cannot represent — a negative
`contentLength` moving the cursor backwards — is flagged with a dedicated
`neg` result and never arises on the streams considered. -/

/-- Tail-level machine state. -/
structure TSt where
  state : JState
  headers : Option HList
  contentLength : Option Int
  tl : List Nat
deriving DecidableEq, Repr

/-- Result of one tail-level step. -/
inductive TRes where
  | suspend (σ : TSt)
  | cont (σ : TSt) (out : Option Part)
  | fail (e : PErr)
  | neg
deriving DecidableEq, Repr

/-- The blank-line-skipping loop, tail view: drop leading `\r\n` pairs. -/
def skipB : List Nat → List Nat
  | a :: b :: r => if a = 13 ∧ b = 10 then skipB r else a :: b :: r
  | l => l

/-- One tail-level step, mirroring `stepOnce` through the tail view. -/
def tstep (cfg : Boundaries) (σ : TSt) : TRes :=
  match σ.state with
  | .boundary =>
    let t := skipB σ.tl
    if t.length < cfg.mid.length then
      .suspend ⟨.boundary, σ.headers, σ.contentLength, t⟩
    else if t.take cfg.mid.length = cfg.mid then
      .cont ⟨.headers, some [], σ.contentLength, t.drop cfg.mid.length⟩ none
    else if t.take cfg.endB.length = cfg.endB then
      .suspend ⟨.boundary, σ.headers, σ.contentLength, t.drop cfg.endB.length⟩
    else
      .fail .malformedBoundary
  | .headers =>
    (σ.tl.findIdx? (fun x => x = 13)).elim (.suspend σ) (fun i =>
      if σ.tl.length = i + 1 then .suspend σ
      else if σ.tl.get? (i + 1) ≠ some 10 then .fail .malformedHeaderLine
      else
        let line := utf8Decode (σ.tl.take i)
        σ.headers.elim (.fail .nullDeref) (fun hdrs =>
          if line = "" then
            (jsParseInt10 (headersGet "Content-Length" hdrs)).elim
              (.fail .invalidContentLength)
              (fun n => .cont ⟨.body, some hdrs, some n, σ.tl.drop (i + 2)⟩ none)
          else
            let colon := strIndexOf line ':'
            if colon = (line.data.length : Int) ∨ jsCharAt line (colon + 1) ≠ some ' ' then
              .fail .malformedHeaderLine
            else
              (headersAppend (jsSubstring line 0 colon)
                  (jsSubstring line (colon + 2) (line.data.length : Int)) hdrs).elim
                (.fail .headerTypeError)
                (fun hs => .cont ⟨.headers, some hs, σ.contentLength, σ.tl.drop (i + 2)⟩ none)))
  | .body =>
    σ.contentLength.elim (.fail .nullDeref) (fun c =>
      if c < 0 then .neg
      else if (σ.tl.length : Int) < c then .suspend σ
      else
        .cont ⟨.boundary, none, none, σ.tl.drop c.toNat⟩
          (some ⟨σ.headers.getD [], σ.tl.take c.toNat⟩))

/-- How a tail-level drain finished. -/
inductive TEnd where
  | more (σ : TSt)
  | fail (e : PErr)
  | neg
deriving DecidableEq, Repr

/-- Tail-level drain loop, mirroring `processBuf`. -/
def tdrain (cfg : Boundaries) : Nat → TSt → Option (List Part × TEnd)
  | 0, _ => none
  | fuel+1, σ =>
    match tstep cfg σ with
    | .suspend σ' => some ([], .more σ')
    | .fail e => some ([], .fail e)
    | .neg => some ([], .neg)
    | .cont σ' out =>
      match tdrain cfg fuel σ' with
      | none => none
      | some (ps, e) => some (out.toList ++ ps, e)

/-- Iterated continue-steps: `stepN n σ = some (σ', out)` means `σ` reaches
`σ'` in exactly `n` continue-steps of the drain loop, emitting `out`. -/
def stepN (cfg : Boundaries) : Nat → TSt → Option (TSt × List Part)
  | 0, σ => some (σ, [])
  | n+1, σ =>
    match tstep cfg σ with
    | .cont σ' out =>
      match stepN cfg n σ' with
      | none => none
      | some (σ'', ps) => some (σ'', out.toList ++ ps)
    | _ => none

/-- The simulation relation: the tail state is the faithful machine seen
through an in-bounds cursor. -/
def rel (m : PMachine) (σ : TSt) : Prop :=
  σ.state = m.state ∧ σ.headers = m.headers ∧ σ.contentLength = m.contentLength ∧
  0 ≤ m.pos ∧ m.pos ≤ (m.buf.length : Int) ∧ σ.tl = m.buf.drop m.pos.toNat

/-! ## Wire-format streams (§6)

A §6-conformant stream is a sequence of parts, each introduced by zero or
more blank lines and a mid-boundary, carrying CRLF-terminated header lines
and a length-delimited body, followed by the end-boundary (again preceded by
optional blank lines) and trailing blank-line padding. -/

/-- `j` blank lines (`\r\n` pairs). -/
def blanks : Nat → List Nat
  | 0 => []
  | j+1 => 13 :: 10 :: blanks j

/-- The wire bytes of one header line `Name: value\r\n`. -/
def headerLineBytes (p : String × String) : List Nat :=
  utf8Bytes (p.1 ++ ": " ++ p.2) ++ [13, 10]

/-- The wire bytes of a header block. -/
def headerBytes (hs : HList) : List Nat :=
  (hs.map headerLineBytes).flatten

/-- One part of a §6 stream: leading blank lines, header pairs, body. -/
structure SpecPart where
  blanks : Nat
  hdrs : HList
  body : List Nat
deriving DecidableEq, Repr

/-- The wire bytes of one part. -/
def encPart (tok : String) (sp : SpecPart) : List Nat :=
  blanks sp.blanks ++ midBytes tok ++ headerBytes sp.hdrs ++ [13, 10] ++ sp.body

/-- The wire bytes of a list of parts. -/
def encParts (tok : String) : List SpecPart → List Nat
  | [] => []
  | sp :: rest => encPart tok sp ++ encParts tok rest

/-- The remaining stream from a between-parts position: the parts still to
come, then blank lines, the end-boundary, and `pad` blank-line pairs of
trailing padding. -/
def streamRest (tok : String) (todo : List SpecPart) (eb pad : Nat) : List Nat :=
  encParts tok todo ++ blanks eb ++ endBytes tok ++ blanks pad

/-- A complete §6 stream. -/
def encStream (tok : String) (ps : List SpecPart) (eb pad : Nat) : List Nat :=
  streamRest tok ps eb pad

/-- The Part the parser is expected to emit for a spec part. -/
def canonPart (sp : SpecPart) : Part :=
  ⟨sp.hdrs, sp.body⟩

/-- A well-formed header name: a nonempty HTTP token, spelled with printable
ASCII characters other than the colon (§6 header lines are `Name: value`
with a token name). -/
def wfName (n : String) : Prop :=
  validHeaderName n = true ∧ ∀ c ∈ n.data, 0x20 < c.toNat ∧ c.toNat < 0x7F ∧ c ≠ ':'

/-- A well-formed header value for round-tripping: printable ASCII (space
allowed inside) with no leading or trailing space, so that the `Headers`
normalization is the identity on it. -/
def wfValue (v : String) : Prop :=
  (∀ c ∈ v.data, 0x20 ≤ c.toNat ∧ c.toNat < 0x7F) ∧
  v.data.head? ≠ some ' ' ∧ v.data.getLast? ≠ some ' '

/-- A well-formed header pair. -/
def wfPair (p : String × String) : Prop :=
  wfName p.1 ∧ wfValue p.2

/-- A well-formed spec part: well-formed header pairs whose combined
`Content-Length` parses (with `parseInt` semantics) to the body length. -/
def wfPart (sp : SpecPart) : Prop :=
  (∀ p ∈ sp.hdrs, wfPair p) ∧
  jsParseInt10 (headersGet "Content-Length" sp.hdrs) = some (sp.body.length : Int)

/-- Shape of a tail on which the READING_HEADERS state suspends: any CR is
the final byte. -/
def SuspH (u : List Nat) : Prop :=
  ∀ i, u.findIdx? (fun x => x = 13) = some i → u.length = i + 1

/-- The wire bytes following a consumed mid-boundary. -/
def partTail (tok : String) (sp : SpecPart) (todo : List SpecPart) (eb pad : Nat) : List Nat :=
  headerBytes sp.hdrs ++ [13, 10] ++ sp.body ++ streamRest tok todo eb pad

/-- Invariant tying a suspended tail state `σ` to the undelivered bytes `F`
of a §6 stream and the parts `todo` not yet emitted. -/
inductive TInv (tok : String) (eb pad : Nat) : TSt → List Nat → List SpecPart → Prop where
  | atB (u F : List Nat) (j : Nat) (sp : SpecPart) (todo' : List SpecPart)
      (h : u ++ F = blanks j ++ midBytes tok ++ partTail tok sp todo' eb pad)
      (hs : (skipB u).length < (midBytes tok).length) :
      TInv tok eb pad ⟨.boundary, none, none, u⟩ F (sp :: todo')
  | atH (u F : List Nat) (sp : SpecPart) (todo' : List SpecPart) (lines1 lines2 : HList)
      (hsplit : sp.hdrs = lines1 ++ lines2)
      (h : u ++ F = headerBytes lines2 ++ [13, 10] ++ sp.body ++ streamRest tok todo' eb pad)
      (hs : SuspH u) :
      TInv tok eb pad ⟨.headers, some lines1, none, u⟩ F (sp :: todo')
  | atBody (u F : List Nat) (sp : SpecPart) (todo' : List SpecPart)
      (h : u ++ F = sp.body ++ streamRest tok todo' eb pad)
      (hs : u.length < sp.body.length) :
      TInv tok eb pad ⟨.body, some sp.hdrs, some (sp.body.length : Int), u⟩ F (sp :: todo')
  | atEnd (u F : List Nat) (j pad' : Nat)
      (h : u ++ F = blanks j ++ endBytes tok ++ blanks pad')
      (hs : (skipB u).length < (midBytes tok).length) :
      TInv tok eb pad ⟨.boundary, none, none, u⟩ F []
  | postEnd (u F : List Nat) (k : Nat)
      (h : u ++ F = blanks k) :
      TInv tok eb pad ⟨.boundary, none, none, u⟩ F []

/-- Append a freshly delivered chunk to the unconsumed tail (the tail-level
image of `feed`). -/
def extendT (σ : TSt) (c : List Nat) : TSt :=
  ⟨σ.state, σ.headers, σ.contentLength, σ.tl ++ c⟩

/-- The drain loop started at `σ₀` runs some continue-steps and then
suspends in a state satisfying the invariant for the future bytes `F` and
a final segment `todo₂` of `todo`, the consumed front being emitted. -/
def DrainsTo (tok : String) (eb pad : Nat) (σ₀ : TSt) (F : List Nat)
    (todo : List SpecPart) : Prop :=
  ∃ n σp out σ₂ todo₂ done,
    stepN (mkBoundaries tok) n σ₀ = some (σp, out) ∧
    tstep (mkBoundaries tok) σp = .suspend σ₂ ∧
    TInv tok eb pad σ₂ F todo₂ ∧
    todo = done ++ todo₂ ∧ out = done.map canonPart

/-! ## Supporting lemmas -/

theorem skipBlanksF_ge (f : Nat) (buf : List Nat) (p : Int) : p ≤ skipBlanksF f buf p := by
  induction f generalizing p with
  | zero => simp [skipBlanksF]
  | succ f ih =>
    simp only [skipBlanksF]
    split
    · exact le_trans (by omega) (ih (p + 2))
    · exact le_refl p

theorem skipBlanksF_le (f : Nat) (buf : List Nat) (p : Int) (h : p ≤ (buf.length : Int)) :
    skipBlanksF f buf p ≤ (buf.length : Int) := by
  induction f generalizing p with
  | zero => simpa [skipBlanksF]
  | succ f ih =>
    simp only [skipBlanksF]
    split
    · next hc => exact ih (p + 2) (by omega)
    · exact h

theorem skipBlanks_ge (buf : List Nat) (p : Int) : p ≤ skipBlanks buf p :=
  skipBlanksF_ge _ buf p

theorem skipBlanks_le (buf : List Nat) (p : Int) (h : p ≤ (buf.length : Int)) :
    skipBlanks buf p ≤ (buf.length : Int) :=
  skipBlanksF_le _ buf p h

theorem jsSlice_self (buf : List Nat) (p : Int) : jsSlice buf p p = [] := by
  simp [jsSlice]

theorem jsGetI_some {buf : List Nat} {i : Int} {v : Nat} (h : jsGetI buf i = some v) :
    0 ≤ i ∧ i < (buf.length : Int) := by
  unfold jsGetI at h
  split at h
  · exact absurd h (by simp)
  · next hn =>
    have h1 : i.toNat < buf.length := List.get?_eq_some.mp h |>.1
    omega

theorem jsSlice_length_le (buf : List Nat) (s e : Int) (hs : 0 ≤ s)
    (hsl : s ≤ (buf.length : Int)) :
    s + ((jsSlice buf s e).length : Int) ≤ (buf.length : Int) := by
  unfold jsSlice clampIdx
  simp only [List.length_take, List.length_drop]
  have h0 : ¬ s < 0 := by omega
  simp only [h0, if_false]
  have h1 : min s.toNat buf.length = s.toNat := by omega
  rw [h1]
  omega

theorem trimNlF_ge (f : Nat) (buf : List Nat) (p : Int) : p ≤ trimNlF f buf p := by
  induction f generalizing p with
  | zero => simp [trimNlF]
  | succ f ih =>
    simp only [trimNlF]
    split
    · exact le_trans (by omega) (ih (p + 1))
    · exact le_refl p

theorem trimNlF_le (f : Nat) (buf : List Nat) (p : Int) (h : p ≤ (buf.length : Int)) :
    trimNlF f buf p ≤ (buf.length : Int) := by
  induction f generalizing p with
  | zero => simpa [trimNlF]
  | succ f ih =>
    simp only [trimNlF]
    split
    · next hc => exact ih (p + 1) (by omega)
    · exact h

theorem trimNewlines_ge (buf : List Nat) (p : Int) : p ≤ trimNewlines buf p :=
  trimNlF_ge _ buf p

theorem trimNewlines_le (buf : List Nat) (p : Int) (h : p ≤ (buf.length : Int)) :
    trimNewlines buf p ≤ (buf.length : Int) :=
  trimNlF_le _ buf p h

theorem compareArrays_iff (a b : List Nat) : compareArrays a b = true ↔ a = b := by
  simp [compareArrays]

theorem get?_drop' {α : Type} (l : List α) (i j : Nat) :
    (l.drop i).get? j = l.get? (i + j) := by
  rw [List.get?_eq_getElem?, List.get?_eq_getElem?, List.getElem?_drop]

/-! ### Bridge lemmas between the faithful and tail views -/

theorem jsSlice_take (buf : List Nat) (p k : Int) (h0 : 0 ≤ p)
    (h1 : p ≤ (buf.length : Int)) (hk : 0 ≤ k) :
    jsSlice buf p (p + k) = (buf.drop p.toNat).take k.toNat := by
  unfold jsSlice clampIdx
  have hp : ¬ p < 0 := by omega
  have hpk : ¬ p + k < 0 := by omega
  simp only [hp, hpk, if_false]
  have hs : min p.toNat buf.length = p.toNat := by omega
  rw [hs]
  by_cases hc : (p + k).toNat ≤ buf.length
  · have he : min (p + k).toNat buf.length = (p + k).toNat := by omega
    rw [he]
    congr 1
    omega
  · have he : min (p + k).toNat buf.length = buf.length := by omega
    rw [he]
    rw [List.take_of_length_le (by simp), List.take_of_length_le (by simp; omega)]

theorem jsSlice_from (buf : List Nat) (p : Int) (h0 : 0 ≤ p)
    (h1 : p ≤ (buf.length : Int)) :
    jsSlice buf p (buf.length : Int) = buf.drop p.toNat := by
  have h2 : (buf.length : Int) = p + ((buf.length : Int) - p) := by ring
  rw [h2, jsSlice_take buf p _ h0 h1 (by omega)]
  rw [List.take_of_length_le (by simp; omega)]

theorem jsGetI_drop (buf : List Nat) (p : Int) (k : Nat) (h0 : 0 ≤ p) :
    jsGetI buf (p + k) = (buf.drop p.toNat).get? k := by
  unfold jsGetI
  have hp : ¬ p + (k : Int) < 0 := by omega
  simp only [hp, if_false]
  rw [get?_drop']
  congr 1
  omega

theorem jsIndexOf_eq_none (buf : List Nat) (b : Nat) (p : Int) (h0 : 0 ≤ p)
    (hfi : (buf.drop p.toNat).findIdx? (fun x => x = b) = none) :
    jsIndexOf buf b p = -1 := by
  unfold jsIndexOf
  have hp : ¬ p < 0 := by omega
  simp only [hp, if_false]
  rw [hfi]

theorem jsIndexOf_eq_some (buf : List Nat) (b : Nat) (p : Int) (i : Nat) (h0 : 0 ≤ p)
    (hfi : (buf.drop p.toNat).findIdx? (fun x => x = b) = some i) :
    jsIndexOf buf b p = p + i := by
  unfold jsIndexOf
  have hp : ¬ p < 0 := by omega
  simp only [hp, if_false]
  rw [hfi]
  dsimp only
  omega

theorem take2_eq {l : List Nat} {a b : Nat} (h : l.take 2 = [a, b]) :
    l = a :: b :: l.drop 2 := by
  match l with
  | [] => simp at h
  | [x] => simp at h
  | x :: y :: r =>
    simp only [List.take, List.cons.injEq] at h
    obtain ⟨rfl, rfl, -⟩ := h
    rfl

theorem skipB_pair (r : List Nat) : skipB (13 :: 10 :: r) = skipB r := by
  simp [skipB]

theorem skipB_stable {l : List Nat} (h : l.take 2 ≠ [13, 10]) : skipB l = l := by
  match l with
  | [] => rfl
  | [x] => rfl
  | a :: b :: r =>
    rw [skipB]
    rw [if_neg]
    rintro ⟨rfl, rfl⟩
    exact h rfl

theorem skipB_no_pair : ∀ (n : Nat) (l : List Nat), l.length ≤ n →
    (skipB l).take 2 ≠ [13, 10]
  | 0, l, h => by
    have : l = [] := List.length_eq_zero.mp (by omega)
    subst this
    simp [skipB]
  | n+1, [], _ => by simp [skipB]
  | n+1, [x], _ => by
    simp only [skipB, List.take]
    intro h
    simp at h
  | n+1, a :: b :: r, h => by
    rw [skipB]
    by_cases hab : a = 13 ∧ b = 10
    · rw [if_pos hab]
      exact skipB_no_pair n r (by simp at h; omega)
    · rw [if_neg hab]
      intro hc
      simp only [List.take, List.cons.injEq] at hc
      exact hab ⟨hc.1, hc.2.1⟩

theorem skipB_idem (l : List Nat) : skipB (skipB l) = skipB l :=
  skipB_stable (skipB_no_pair l.length l (le_refl _))

theorem skipB_blanks (j : Nat) (w : List Nat) : skipB (blanks j ++ w) = skipB w := by
  induction j with
  | zero => rfl
  | succ j ih =>
    show skipB (13 :: 10 :: (blanks j ++ w)) = skipB w
    rw [skipB_pair, ih]

theorem blanks_length (j : Nat) : (blanks j).length = 2 * j := by
  induction j with
  | zero => rfl
  | succ j ih => simp [blanks, ih]; omega

theorem blanks_all_nl (j : Nat) : ∀ b ∈ blanks j, b = 10 ∨ b = 13 := by
  induction j with
  | zero => simp [blanks]
  | succ j ih =>
    intro b hb
    simp only [blanks, List.mem_cons] at hb
    rcases hb with rfl | rfl | hb
    · omega
    · omega
    · exact ih b hb

theorem skipBlanksF_skipB (buf : List Nat) : ∀ (f : Nat) (p : Int), 0 ≤ p →
    p ≤ (buf.length : Int) → (buf.length : Int) - p < 2 * f →
    buf.drop (skipBlanksF f buf p).toNat = skipB (buf.drop p.toNat) := by
  intro f
  induction f with
  | zero => intro p h0 h1 hf; omega
  | succ f ih =>
    intro p h0 h1 hf
    rw [skipBlanksF]
    split
    · next hc =>
      obtain ⟨hc1, hc2⟩ := hc
      have hsl : jsSlice buf p (p + 2) = [13, 10] := (compareArrays_iff _ _).mp hc2
      rw [jsSlice_take buf p 2 h0 h1 (by omega)] at hsl
      have ht2 : (buf.drop p.toNat).take 2 = [13, 10] := by simpa using hsl
      have hexp := take2_eq ht2
      rw [ih (p + 2) (by omega) (by omega) (by omega)]
      have hd : buf.drop (p + 2).toNat = (buf.drop p.toNat).drop 2 := by
        rw [List.drop_drop]
        congr 1
        omega
      rw [hd]
      conv_rhs => rw [hexp]
      rw [skipB_pair]
    · next hc =>
      push_neg at hc
      by_cases hlen : (buf.length : Int) ≥ p + 2
      · have hc2 := hc hlen
        have hne : (buf.drop p.toNat).take 2 ≠ [13, 10] := by
          intro hx
          apply hc2
          rw [compareArrays_iff, jsSlice_take buf p 2 h0 h1 (by omega)]
          simpa using hx
        rw [skipB_stable hne]
      · have hlen1 : (buf.drop p.toNat).length ≤ 1 := by
          simp only [List.length_drop]
          omega
        rw [skipB_stable]
        intro hx
        have hx2 := congrArg List.length hx
        simp only [List.length_take, List.length_cons, List.length_nil] at hx2
        omega

theorem skipBlanks_skipB (buf : List Nat) (p : Int) (h0 : 0 ≤ p)
    (h1 : p ≤ (buf.length : Int)) :
    buf.drop (skipBlanks buf p).toNat = skipB (buf.drop p.toNat) := by
  unfold skipBlanks
  exact skipBlanksF_skipB buf _ p h0 h1 (by omega)

theorem tstep_sim (cfg : Boundaries) (m : PMachine) (σ : TSt) (hrel : rel m σ) :
    match tstep cfg σ with
    | .suspend σ' => ∃ m', stepOnce cfg m = .suspend m' ∧ rel m' σ'
    | .cont σ' out => ∃ m', stepOnce cfg m = .cont m' out ∧ rel m' σ'
    | .fail e => stepOnce cfg m = .fail e
    | .neg => True := by
  obtain ⟨st, sh, scl, mbuf, mpos⟩ := m
  obtain ⟨sst, sh, scl, stl⟩ := σ
  obtain ⟨h1, h2, h3, h0, hle, htl⟩ := hrel
  dsimp only at h1 h2 h3 h0 hle htl
  subst h1 h2 h3 htl
  cases sst with
  | boundary =>
    have hq0 : 0 ≤ skipBlanks mbuf mpos := le_trans h0 (skipBlanks_ge mbuf mpos)
    have hqle : skipBlanks mbuf mpos ≤ (mbuf.length : Int) := skipBlanks_le mbuf mpos hle
    have hqd : mbuf.drop (skipBlanks mbuf mpos).toNat = skipB (mbuf.drop mpos.toNat) :=
      skipBlanks_skipB mbuf mpos h0 hle
    have hlen : ((skipB (mbuf.drop mpos.toNat)).length : Int) =
        (mbuf.length : Int) - skipBlanks mbuf mpos := by
      rw [← hqd]
      simp only [List.length_drop]
      omega
    have hsl : ∀ k : Nat, jsSlice mbuf (skipBlanks mbuf mpos)
        (skipBlanks mbuf mpos + (k : Int)) = (skipB (mbuf.drop mpos.toNat)).take k := by
      intro k
      rw [jsSlice_take mbuf _ _ hq0 hqle (by omega), hqd]
      congr 1
    simp only [tstep, stepOnce]
    by_cases hc1 : (skipB (mbuf.drop mpos.toNat)).length < cfg.mid.length
    · rw [if_pos hc1]
      refine ⟨⟨.boundary, sh, scl, mbuf, skipBlanks mbuf mpos⟩, ?_, ?_⟩
      · rw [if_pos (by omega)]
      · exact ⟨rfl, rfl, rfl, hq0, hqle, hqd.symm⟩
    · rw [if_neg hc1]
      have hcF1 : ¬ ((mbuf.length : Int) < skipBlanks mbuf mpos + cfg.mid.length) := by omega
      by_cases hc2 : (skipB (mbuf.drop mpos.toNat)).take cfg.mid.length = cfg.mid
      · rw [if_pos hc2]
        refine ⟨⟨.headers, some [], scl, mbuf, skipBlanks mbuf mpos + cfg.mid.length⟩, ?_, ?_⟩
        · rw [if_neg hcF1, if_pos (by rw [compareArrays_iff, hsl]; exact hc2)]
        · refine ⟨rfl, rfl, rfl,
            show (0 : Int) ≤ skipBlanks mbuf mpos + (cfg.mid.length : Int) by omega,
            show skipBlanks mbuf mpos + (cfg.mid.length : Int) ≤ (mbuf.length : Int) by omega,
            ?_⟩
          show (skipB (mbuf.drop mpos.toNat)).drop cfg.mid.length =
            mbuf.drop (skipBlanks mbuf mpos + (cfg.mid.length : Int)).toNat
          rw [← hqd, List.drop_drop]
          congr 1
          omega
      · rw [if_neg hc2]
        have hcF2 : ¬ (compareArrays (jsSlice mbuf (skipBlanks mbuf mpos)
            (skipBlanks mbuf mpos + (cfg.mid.length : Int))) cfg.mid = true) := by
          rw [compareArrays_iff, hsl]
          exact hc2
        by_cases hc3 : (skipB (mbuf.drop mpos.toNat)).take cfg.endB.length = cfg.endB
        · rw [if_pos hc3]
          have hlend : cfg.endB.length ≤ (skipB (mbuf.drop mpos.toNat)).length := by
            have hl := congrArg List.length hc3
            simp only [List.length_take] at hl
            omega
          refine ⟨⟨.boundary, sh, scl, mbuf, skipBlanks mbuf mpos + cfg.endB.length⟩, ?_, ?_⟩
          · rw [if_neg hcF1, if_neg hcF2, if_pos (by rw [compareArrays_iff, hsl]; exact hc3)]
          · refine ⟨rfl, rfl, rfl,
            show (0 : Int) ≤ skipBlanks mbuf mpos + (cfg.endB.length : Int) by omega,
            show skipBlanks mbuf mpos + (cfg.endB.length : Int) ≤ (mbuf.length : Int) by omega,
            ?_⟩
            show (skipB (mbuf.drop mpos.toNat)).drop cfg.endB.length =
              mbuf.drop (skipBlanks mbuf mpos + (cfg.endB.length : Int)).toNat
            rw [← hqd, List.drop_drop]
            congr 1
            omega
        · rw [if_neg hc3]
          have hcF3 : ¬ (compareArrays (jsSlice mbuf (skipBlanks mbuf mpos)
              (skipBlanks mbuf mpos + (cfg.endB.length : Int))) cfg.endB = true) := by
            rw [compareArrays_iff, hsl]
            exact hc3
          rw [if_neg hcF1, if_neg hcF2, if_neg hcF3]
  | headers =>
    simp only [tstep, stepOnce]
    cases hfi : (mbuf.drop mpos.toNat).findIdx? (fun x => x = 13) with
    | none =>
      have hio : jsIndexOf mbuf 13 mpos = -1 := jsIndexOf_eq_none mbuf 13 mpos h0 hfi
      simp only [Option.elim_none]
      refine ⟨⟨.headers, sh, scl, mbuf, mpos⟩, ?_, ?_⟩
      · rw [hio, if_pos (Or.inl rfl)]
      · exact ⟨rfl, rfl, rfl, h0, hle, rfl⟩
    | some i =>
      have hio : jsIndexOf mbuf 13 mpos = mpos + i := jsIndexOf_eq_some mbuf 13 mpos i h0 hfi
      have hilen : i < (mbuf.drop mpos.toNat).length :=
        (List.findIdx?_eq_some_iff_findIdx_eq.mp hfi).1
      have htlen : ((mbuf.drop mpos.toNat).length : Int) = (mbuf.length : Int) - mpos := by
        simp only [List.length_drop]
        omega
      simp only [Option.elim_some]
      by_cases hc1 : (mbuf.drop mpos.toNat).length = i + 1
      · rw [if_pos hc1]
        refine ⟨⟨.headers, sh, scl, mbuf, mpos⟩, ?_, ?_⟩
        · rw [hio, if_pos (Or.inr (by omega))]
        · exact ⟨rfl, rfl, rfl, h0, hle, rfl⟩
      · rw [if_neg hc1]
        have hcF1 : ¬ (jsIndexOf mbuf 13 mpos = -1 ∨
            (mbuf.length : Int) = jsIndexOf mbuf 13 mpos + 1) := by
          rw [hio]
          push_neg
          refine ⟨by omega, by omega⟩
        have hget : jsGetI mbuf (jsIndexOf mbuf 13 mpos + 1) =
            (mbuf.drop mpos.toNat).get? (i + 1) := by
          rw [hio, show mpos + (i : Int) + 1 = mpos + ((i + 1 : Nat) : Int) by push_cast; ring]
          exact jsGetI_drop mbuf mpos (i + 1) h0
        by_cases hc2 : (mbuf.drop mpos.toNat).get? (i + 1) ≠ some 10
        · rw [if_pos hc2]
          rw [if_neg hcF1, if_pos (by rw [hget]; exact hc2)]
        · rw [if_neg hc2]
          push_neg at hc2
          have hi2 : i + 1 < (mbuf.drop mpos.toNat).length := List.get?_eq_some.mp hc2 |>.1
          have hslF : jsSlice mbuf mpos (jsIndexOf mbuf 13 mpos) =
              (mbuf.drop mpos.toNat).take i := by
            rw [hio, jsSlice_take mbuf mpos i h0 hle (by omega)]
            congr 1
          have hdropF : ∀ m' : PMachine, True := fun _ => trivial
          have hdrop2 : mbuf.drop (jsIndexOf mbuf 13 mpos + 2).toNat =
              (mbuf.drop mpos.toNat).drop (i + 2) := by
            rw [hio, List.drop_drop]
            congr 1
            omega

          have hposb : 0 ≤ jsIndexOf mbuf 13 mpos + 2 ∧
              jsIndexOf mbuf 13 mpos + 2 ≤ (mbuf.length : Int) := by
            rw [hio]
            constructor
            · omega
            · omega
          cases sh with
          | none =>
            simp only [Option.elim_none]
            rw [if_neg hcF1, if_neg (by rw [hget]; simpa using hc2)]
          | some hdrs =>
            simp only [Option.elim_some]
            by_cases hc3 : utf8Decode ((mbuf.drop mpos.toNat).take i) = ""
            · rw [if_pos hc3]
              cases hp : jsParseInt10 (headersGet "Content-Length" hdrs) with
              | none =>
                simp only [Option.elim_none]
                rw [if_neg hcF1, if_neg (by rw [hget]; simpa using hc2),
                  if_pos (by rw [hslF]; exact hc3)]
              | some n =>
                simp only [Option.elim_some]
                refine ⟨⟨.body, some hdrs, some n, mbuf, jsIndexOf mbuf 13 mpos + 2⟩, ?_, ?_⟩
                · rw [if_neg hcF1, if_neg (by rw [hget]; simpa using hc2),
                    if_pos (by rw [hslF]; exact hc3)]
                · exact ⟨rfl, rfl, rfl, hposb.1, hposb.2, hdrop2.symm⟩
            · rw [if_neg hc3]
              by_cases hc4 : strIndexOf (utf8Decode ((mbuf.drop mpos.toNat).take i)) ':' =
                  ((utf8Decode ((mbuf.drop mpos.toNat).take i)).data.length : Int) ∨
                  jsCharAt (utf8Decode ((mbuf.drop mpos.toNat).take i))
                    (strIndexOf (utf8Decode ((mbuf.drop mpos.toNat).take i)) ':' + 1) ≠ some ' '
              · rw [if_pos hc4]
                rw [if_neg hcF1, if_neg (by rw [hget]; simpa using hc2),
                  if_neg (by rw [hslF]; exact hc3)]
                simp only [Option.elim_some]
                rw [hslF, if_pos hc4]
              · rw [if_neg hc4]
                cases ha : headersAppend
                    (jsSubstring (utf8Decode ((mbuf.drop mpos.toNat).take i)) 0
                      (strIndexOf (utf8Decode ((mbuf.drop mpos.toNat).take i)) ':'))
                    (jsSubstring (utf8Decode ((mbuf.drop mpos.toNat).take i))
                      (strIndexOf (utf8Decode ((mbuf.drop mpos.toNat).take i)) ':' + 2)
                      ((utf8Decode ((mbuf.drop mpos.toNat).take i)).data.length : Int))
                    hdrs with
                | none =>
                  simp only [Option.elim_none]
                  rw [if_neg hcF1, if_neg (by rw [hget]; simpa using hc2),
                    if_neg (by rw [hslF]; exact hc3)]
                  rw [hslF, if_neg hc4, ha]
                  rfl
                | some hs' =>
                  simp only [Option.elim_some]
                  refine ⟨⟨.headers, some hs', scl, mbuf, jsIndexOf mbuf 13 mpos + 2⟩, ?_, ?_⟩
                  · rw [if_neg hcF1, if_neg (by rw [hget]; simpa using hc2),
                      if_neg (by rw [hslF]; exact hc3)]
                    rw [hslF, if_neg hc4, ha]
                    rfl
                  · exact ⟨rfl, rfl, rfl, hposb.1, hposb.2, hdrop2.symm⟩
  | body =>
    simp only [tstep, stepOnce]
    cases scl with
    | none => simp only [Option.elim_none]
    | some c =>
      simp only [Option.elim_some]
      have htlen : ((mbuf.drop mpos.toNat).length : Int) = (mbuf.length : Int) - mpos := by
        simp only [List.length_drop]
        omega
      by_cases hneg : c < 0
      · rw [if_pos hneg]
        trivial
      · rw [if_neg hneg]
        by_cases hc1 : ((mbuf.drop mpos.toNat).length : Int) < c
        · rw [if_pos hc1]
          refine ⟨⟨.body, sh, some c, mbuf, mpos⟩, ?_, ?_⟩
          · rw [if_pos (by omega)]
          · exact ⟨rfl, rfl, rfl, h0, hle, rfl⟩
        · rw [if_neg hc1]
          have hslB : jsSlice mbuf mpos (mpos + c) = (mbuf.drop mpos.toNat).take c.toNat :=
            jsSlice_take mbuf mpos c h0 hle (by omega)
          refine ⟨⟨.boundary, none, none, mbuf, mpos + c⟩, ?_, ?_⟩
          · rw [if_neg (by omega), hslB]
          · refine ⟨rfl, rfl, rfl, show (0 : Int) ≤ mpos + c by omega,
              show mpos + c ≤ (mbuf.length : Int) by omega, ?_⟩
            show (mbuf.drop mpos.toNat).drop c.toNat = mbuf.drop (mpos + c).toNat
            rw [List.drop_drop]
            congr 1
            omega

theorem tdrain_sim (cfg : Boundaries) : ∀ (f : Nat) (m : PMachine) (σ : TSt), rel m σ →
    match tdrain cfg f σ with
    | none => processBuf cfg f m = none
    | some (ps, .more σ') => ∃ m', processBuf cfg f m = some (ps, .more m') ∧ rel m' σ'
    | some (ps, .fail e) => processBuf cfg f m = some (ps, .fail e)
    | some (_, .neg) => True := by
  intro f
  induction f with
  | zero =>
    intro m σ h
    simp [tdrain, processBuf]
  | succ f ih =>
    intro m σ hrel
    have hsim := tstep_sim cfg m σ hrel
    simp only [tdrain, processBuf]
    cases hts : tstep cfg σ with
    | suspend σ' =>
      rw [hts] at hsim
      obtain ⟨m', hm', hrel'⟩ := hsim
      rw [hm']
      exact ⟨m', rfl, hrel'⟩
    | fail e =>
      rw [hts] at hsim
      rw [hsim]
    | neg => trivial
    | cont σ' out =>
      rw [hts] at hsim
      obtain ⟨m', hm', hrel'⟩ := hsim
      rw [hm']
      dsimp only
      have ih' := ih m' σ' hrel'
      cases htd : tdrain cfg f σ' with
      | none =>
        rw [htd] at ih'
        dsimp only at ih'
        dsimp only
        rw [ih']
      | some pe =>
        obtain ⟨ps, e⟩ := pe
        rw [htd] at ih'
        cases e with
        | more σ'' =>
          obtain ⟨m'', hm'', hrel''⟩ := ih'
          dsimp only
          rw [hm'']
          exact ⟨m'', rfl, hrel''⟩
        | fail er =>
          dsimp only at ih'
          dsimp only
          rw [ih']
        | neg => trivial

theorem tdrain_mono (cfg : Boundaries) : ∀ (f : Nat) (σ : TSt) (r : List Part × TEnd),
    tdrain cfg f σ = some r → ∀ g, f ≤ g → tdrain cfg g σ = some r := by
  intro f
  induction f with
  | zero => intro σ r h; simp [tdrain] at h
  | succ f ih =>
    intro σ r h g hg
    obtain ⟨g', rfl⟩ : ∃ g', g = g' + 1 := ⟨g - 1, by omega⟩
    rw [tdrain] at h ⊢
    cases hts : tstep cfg σ with
    | suspend σ' => rw [hts] at h; exact h
    | fail e => rw [hts] at h; exact h
    | neg => rw [hts] at h; exact h
    | cont σ' out =>
      rw [hts] at h
      dsimp only at h ⊢
      cases htd : tdrain cfg f σ' with
      | none => rw [htd] at h; exact absurd h (by simp)
      | some pe =>
        rw [htd] at h
        rw [ih σ' pe htd g' (by omega)]
        exact h

theorem stepN_comp (cfg : Boundaries) : ∀ (a : Nat) (σ σ₁ σ₂ : TSt) (o₁ o₂ : List Part) (b : Nat),
    stepN cfg a σ = some (σ₁, o₁) → stepN cfg b σ₁ = some (σ₂, o₂) →
    stepN cfg (a + b) σ = some (σ₂, o₁ ++ o₂) := by
  intro a
  induction a with
  | zero =>
    intro σ σ₁ σ₂ o₁ o₂ b h1 h2
    simp only [stepN, Option.some.injEq, Prod.mk.injEq] at h1
    obtain ⟨rfl, h4⟩ := h1
    subst h4
    simpa using h2
  | succ a ih =>
    intro σ σ₁ σ₂ o₁ o₂ b h1 h2
    rw [stepN] at h1
    rw [show a + 1 + b = (a + b) + 1 by omega, stepN]
    cases hts : tstep cfg σ with
    | cont σ' o =>
      rw [hts] at h1
      dsimp only at h1 ⊢
      cases hsn : stepN cfg a σ' with
      | none => rw [hsn] at h1; exact absurd h1 (by simp)
      | some sp =>
        obtain ⟨σm, psm⟩ := sp
        rw [hsn] at h1
        simp only [Option.some.injEq, Prod.mk.injEq] at h1
        obtain ⟨rfl, h4⟩ := h1
        subst h4
        rw [ih _ _ _ _ _ _ hsn h2]
        simp
    | suspend σ' => rw [hts] at h1; exact absurd h1 (by simp)
    | fail e => rw [hts] at h1; exact absurd h1 (by simp)
    | neg => rw [hts] at h1; exact absurd h1 (by simp)

theorem tdrain_of_steps (cfg : Boundaries) : ∀ (n : Nat) (σ σ₁ : TSt) (out : List Part)
    (f : Nat) (ps : List Part) (E : TEnd),
    stepN cfg n σ = some (σ₁, out) → tdrain cfg f σ₁ = some (ps, E) →
    tdrain cfg (n + f) σ = some (out ++ ps, E) := by
  intro n
  induction n with
  | zero =>
    intro σ σ₁ out f ps E h1 h2
    simp only [stepN, Option.some.injEq, Prod.mk.injEq] at h1
    obtain ⟨rfl, h4⟩ := h1
    subst h4
    simpa using h2
  | succ n ih =>
    intro σ σ₁ out f ps E h1 h2
    rw [stepN] at h1
    rw [show n + 1 + f = (n + f) + 1 by omega, tdrain]
    cases hts : tstep cfg σ with
    | cont σ' o =>
      rw [hts] at h1
      dsimp only at h1 ⊢
      cases hsn : stepN cfg n σ' with
      | none => rw [hsn] at h1; exact absurd h1 (by simp)
      | some sp =>
        obtain ⟨σm, psm⟩ := sp
        rw [hsn] at h1
        simp only [Option.some.injEq, Prod.mk.injEq] at h1
        obtain ⟨rfl, h4⟩ := h1
        subst h4
        rw [ih _ _ _ _ _ _ hsn h2]
        simp
    | suspend σ' => rw [hts] at h1; exact absurd h1 (by simp)
    | fail e => rw [hts] at h1; exact absurd h1 (by simp)
    | neg => rw [hts] at h1; exact absurd h1 (by simp)

theorem feed_rel (m : PMachine) (σ : TSt) (c : List Nat) (hrel : rel m σ) :
    rel (feed m c) ⟨σ.state, σ.headers, σ.contentLength, σ.tl ++ c⟩ := by
  obtain ⟨st, mh, mcl, mbuf, mpos⟩ := m
  obtain ⟨sst, sh, scl, stl⟩ := σ
  obtain ⟨h1, h2, h3, h0, hle, htl⟩ := hrel
  dsimp only at h1 h2 h3 h0 hle htl ⊢
  subst h1 h2 h3 htl
  unfold feed
  dsimp only
  by_cases hb : (mbuf.length : Int) - mpos = 0
  · rw [if_pos hb]
    have hdrop : mbuf.drop mpos.toNat = [] := by
      apply List.drop_eq_nil_of_le
      omega
    refine ⟨rfl, rfl, rfl, le_refl 0, by simp, ?_⟩
    simp [hdrop]
  · rw [if_neg hb]
    have hsl : jsSlice mbuf mpos (mbuf.length : Int) = mbuf.drop mpos.toNat :=
      jsSlice_from mbuf mpos h0 hle
    have hrepl : ((mbuf.length : Int) - mpos).toNat - (jsSlice mbuf mpos (mbuf.length : Int)).length = 0 := by
      rw [hsl]
      simp only [List.length_drop]
      omega
    refine ⟨rfl, rfl, rfl, le_refl 0, by positivity, ?_⟩
    rw [hrepl, hsl]
    simp

theorem trimNlF_all (buf : List Nat) : ∀ (f : Nat) (p : Int), 0 ≤ p →
    p ≤ (buf.length : Int) → (buf.length : Int) - p ≤ f →
    (∀ b ∈ buf.drop p.toNat, b = 10 ∨ b = 13) →
    (buf.length : Int) - trimNlF f buf p ≤ 0 := by
  intro f
  induction f with
  | zero => intro p h0 h1 hf hall; simp only [trimNlF]; omega
  | succ f ih =>
    intro p h0 h1 hf hall
    rw [trimNlF]
    by_cases hend : (buf.length : Int) - p = 0
    · split
      · next hcond => omega
      · omega
    · have hlt : p < (buf.length : Int) := by omega
      have hget : ∃ b, jsGetI buf p = some b ∧ (b = 10 ∨ b = 13) := by
        have h00 : jsGetI buf (p + ((0 : Nat) : Int)) = (buf.drop p.toNat).get? 0 :=
          jsGetI_drop buf p 0 h0
        simp only [Int.ofNat_zero, add_zero] at h00
        cases hh : (buf.drop p.toNat).get? 0 with
        | none =>
          rw [List.get?_eq_none] at hh
          simp only [List.length_drop] at hh
          omega
        | some b =>
          refine ⟨b, by rw [h00, hh], ?_⟩
          exact hall b (List.get?_mem hh)
      obtain ⟨b, hb, hb2⟩ := hget
      have hcond : jsGetI buf p = some 10 ∨ jsGetI buf p = some 13 := by
        cases hb2 with
        | inl h => subst h; exact Or.inl hb
        | inr h => subst h; exact Or.inr hb
      rw [if_pos ⟨by omega, hcond⟩]
      apply ih (p + 1) (by omega) (by omega) (by omega)
      intro x hx
      apply hall
      have : buf.drop (p + 1).toNat = (buf.drop p.toNat).drop 1 := by
        rw [List.drop_drop]
        congr 1
        omega
      rw [this] at hx
      exact List.mem_of_mem_drop hx

theorem trimNewlines_all (buf : List Nat) (p : Int) (h0 : 0 ≤ p)
    (h1 : p ≤ (buf.length : Int))
    (hall : ∀ b ∈ buf.drop p.toNat, b = 10 ∨ b = 13) :
    ¬ ((buf.length : Int) - trimNewlines buf p > 0) := by
  unfold trimNewlines
  have := trimNlF_all buf ((buf.length : Int) - p).toNat p h0 h1 (by omega) hall
  omega

theorem leadDigits_eq_none_iff (r : List Char) :
    leadDigits r = none ↔ ∀ c, r.head? = some c → c.isDigit = false := by
  cases r with
  | nil => simp [leadDigits]
  | cons c r =>
    by_cases hc : c.isDigit
    · simp [leadDigits, List.takeWhile, hc]
    · simp [leadDigits, List.takeWhile, hc]

theorem jsParseIntChars_eq_none_iff (l : List Char) :
    jsParseIntChars l = none ↔ ∀ c, (afterSign l).head? = some c → c.isDigit = false := by
  unfold jsParseIntChars afterSign
  cases hd : l.dropWhile jsWsChar with
  | nil => simp
  | cons c r =>
    dsimp only
    by_cases hm : c = '-'
    · subst hm
      rw [if_pos rfl, if_pos (Or.inl rfl)]
      rcases h : leadDigits r with _ | n
      · simpa using (leadDigits_eq_none_iff r).mp h
      · constructor
        · intro hc; exact absurd hc (by simp)
        · intro hall
          have h2 := (leadDigits_eq_none_iff r).mpr hall
          rw [h] at h2; cases h2
    · by_cases hp : c = '+'
      · subst hp
        rw [if_neg hm, if_pos rfl, if_pos (Or.inr rfl)]
        rcases h : leadDigits r with _ | n
        · simpa using (leadDigits_eq_none_iff r).mp h
        · constructor
          · intro hc; exact absurd hc (by simp)
          · intro hall
            have h2 := (leadDigits_eq_none_iff r).mpr hall
            rw [h] at h2; cases h2
      · rw [if_neg hm, if_neg hp, if_neg (by tauto)]
        rcases h : leadDigits (c :: r) with _ | n
        · simpa using (leadDigits_eq_none_iff (c :: r)).mp h
        · constructor
          · intro hc; exact absurd hc (by simp)
          · intro hall
            have h2 := (leadDigits_eq_none_iff (c :: r)).mpr hall
            rw [h] at h2; cases h2

/-! ## Claim theorems: concrete runs -/

/-- C8: with content type `multipart/x-mixed-replace; boundary=X` and the
exact bytes `--X\r\nContent-Length: 5\r\n\r\nhello--X--` followed by
end-of-source, the parser emits exactly one Part whose `Content-Length`
header is `5` and whose body is the five bytes `hello`, then closes the
output sequence successfully. -/
theorem c8_worked_example :
    runMultipart "multipart/x-mixed-replace; boundary=X" 100
      [utf8Bytes "--X\r\nContent-Length: 5\r\n\r\nhello--X--"] =
    ([⟨[("Content-Length", "5")], utf8Bytes "hello"⟩], .closed) := by
  decide

/-- C1 counterexample: the stream `--X--` followed by five LF bytes conforms
to the wire format of §6 (it ends with the end-boundary followed only by
CR/LF padding bytes), yet two chunkings of the same bytes disagree: as a
single chunk the sequence closes successfully, while splitting right after
the end-boundary makes the padding re-enter boundary matching and fail with
MalformedBoundary.  Termination is therefore not chunking-invariant, refuting
the claim as stated. -/
theorem c1_counterexample :
    runMultipart "multipart/x; boundary=X" 100 [utf8Bytes "--X--\n\n\n\n\n"] =
      ([], .closed) ∧
    runMultipart "multipart/x; boundary=X" 100 [utf8Bytes "--X--", utf8Bytes "\n\n\n\n\n"] =
      ([], .errored (.parseErr .malformedBoundary)) := by
  constructor
  · decide
  · decide

/-- C2 counterexample: the claim says that when any bytes other than CR/LF
padding follow the end-boundary the parser fails with TruncatedStream and
emits no further Parts.  But the machine keeps no memory of having consumed
an end-boundary: if the trailing bytes arrive in a later chunk they are
re-parsed, here emitting a further Part and closing successfully; only when
the same bytes sit in the same chunk as the end-boundary do they remain
unconsumed and trigger TruncatedStream. -/
theorem c2_counterexample :
    runMultipart "multipart/x; boundary=X" 100
      [utf8Bytes "--X--", utf8Bytes "--X\r\nContent-Length: 0\r\n\r\n--X--"] =
      ([⟨[("Content-Length", "0")], []⟩], .closed) ∧
    runMultipart "multipart/x; boundary=X" 100
      [utf8Bytes "--X----X\r\nContent-Length: 0\r\n\r\n--X--"] =
      ([], .errored .truncatedStream) := by
  constructor
  · decide
  · decide

/-- C3 counterexample: a part whose `Content-Length` value is `-5` (not a
valid non-negative decimal integer) does not fail with InvalidContentLength:
`parseInt` accepts the sign, the parser enters READING_BODY with a negative
length, emits a Part with an empty body, and only later fails with
MalformedBoundary when re-examining already-consumed bytes. -/
theorem c3_counterexample :
    runMultipart "multipart/x; boundary=X" 100
      [utf8Bytes "--X\r\nContent-Length: -5\r\n\r\nhi--X--"] =
      ([⟨[("Content-Length", "-5")], []⟩], .errored (.parseErr .malformedBoundary)) := by
  decide

/-- C5 (code bug): the source guards header lines with
`colon == line.length || line[colon + 1] != ' '`, but `indexOf` can never
return `line.length`; the intended check was `colon == -1`.  For a header
line with no colon at all that begins with a space (here ` x`), `colon` is
`-1` and `line[0]` is a space, so the guard passes, and the code then calls
`headers.append('', 'x')`, which throws a `TypeError` from the `Headers`
class instead of the MalformedHeaderLine error the claim (and the spec's
error table) prescribe.  A no-colon line not starting with a space does take
the MalformedHeaderLine path, shown for contrast. -/
theorem c5_header_line_bug :
    runMultipart "multipart/x; boundary=X" 100
      [utf8Bytes "--X\r\n x\r\nContent-Length: 0\r\n\r\n--X--"] =
      ([], .errored (.parseErr .headerTypeError)) ∧
    runMultipart "multipart/x; boundary=X" 100
      [utf8Bytes "--X\r\nxyz\r\nContent-Length: 0\r\n\r\n--X--"] =
      ([], .errored (.parseErr .malformedHeaderLine)) := by
  constructor
  · decide
  · decide

/-- C4 counterexample: a parse of two concrete chunks (a 100-character
boundary token, then a header block declaring `Content-Length: -100`)
reaches a suspension point of the drain loop whose cursor is `-76`,
refuting `0 <= cursor` — even at a suspension point, not only mid-drain. -/
theorem c4_counterexample :
    processBuf (mkBoundaries (String.mk (List.replicate 100 'a'))) 200
        (feed initMachine (utf8Bytes ("--" ++ String.mk (List.replicate 100 'a') ++ "\r\n"))) =
      some ([], .more ⟨.headers, some [], none,
        utf8Bytes ("--" ++ String.mk (List.replicate 100 'a') ++ "\r\n"), 104⟩) ∧
    processBuf (mkBoundaries (String.mk (List.replicate 100 'a'))) 200
        (feed ⟨.headers, some [], none,
          utf8Bytes ("--" ++ String.mk (List.replicate 100 'a') ++ "\r\n"), 104⟩
          (utf8Bytes "Content-Length: -100\r\n\r\n")) =
      some ([⟨[("Content-Length", "-100")], []⟩], .more ⟨.boundary, none, none,
        utf8Bytes "Content-Length: -100\r\n\r\n", -76⟩) := by
  constructor
  · decide
  · decide

/-! ## Claim theorems: state-machine steps -/

/-- C10: in READING_BODY with a Content-Length of 0 (and the cursor within
bounds) the very next step of the drain loop emits a Part with an empty
(zero-byte) body — it does not suspend for further input — and transitions
back to AWAITING_BOUNDARY with the loop continuing in the same invocation
(the result is a continue step, not a suspension). -/
theorem c10_zero_length_body (cfg : Boundaries) (m : PMachine)
    (hst : m.state = .body) (hcl : m.contentLength = some 0)
    (hpos : m.pos ≤ (m.buf.length : Int)) :
    stepOnce cfg m =
      .cont { m with state := .boundary, headers := none, contentLength := none }
        (some ⟨m.headers.getD [], []⟩) := by
  simp only [stepOnce, hst, hcl, Option.elim_some, Int.add_zero]
  rw [if_neg (by omega), jsSlice_self]

/-- Witness for `c10_zero_length_body` at a concrete machine state. -/
theorem c10_witness :
    stepOnce (mkBoundaries "X") ⟨.body, some [("a", "b")], some 0, [1, 2, 3], 1⟩ =
      .cont ⟨.boundary, none, none, [1, 2, 3], 1⟩ (some ⟨[("a", "b")], []⟩) :=
  c10_zero_length_body (mkBoundaries "X") ⟨.body, some [("a", "b")], some 0, [1, 2, 3], 1⟩
    rfl rfl (by decide)

/-- C3 (amended): when the empty header line is processed the parser applies
JavaScript `parseInt(·, 10)` semantics to the combined `Content-Length`
value: it fails with InvalidContentLength exactly when the header is absent
or its value has no leading decimal digit after optional whitespace and an
optional sign; otherwise it transitions to READING_BODY with the parsed
signed integer (ignoring any trailing junk).  In particular a negative value
such as `-5` is accepted (contentLength becomes `-5`), contrary to the
original claim. -/
theorem c3_content_length (cfg : Boundaries) (m : PMachine) (hdrs : HList) (cr : Int)
    (hst : m.state = .headers) (hh : m.headers = some hdrs)
    (hcr : jsIndexOf m.buf 13 m.pos = cr)
    (hne : ¬(cr = -1 ∨ (m.buf.length : Int) = cr + 1))
    (hlf : jsGetI m.buf (cr + 1) = some 10)
    (hline : utf8Decode (jsSlice m.buf m.pos cr) = "") :
    (jsParseInt10 (headersGet "Content-Length" hdrs) = none →
      stepOnce cfg m = .fail .invalidContentLength) ∧
    (∀ n, jsParseInt10 (headersGet "Content-Length" hdrs) = some n →
      stepOnce cfg m =
        .cont { m with pos := cr + 2, state := .body, contentLength := some n } none) ∧
    (∀ v : String, jsParseInt10 (some v) = none ↔
      ∀ c, (afterSign v.data).head? = some c → c.isDigit = false) ∧
    jsParseInt10 (some "-5") = some (-5) := by
  obtain ⟨st, mh, mcl, mbuf, mpos⟩ := m
  dsimp only at hst hh hcr hne hlf hline ⊢
  subst hst hh
  refine ⟨?_, ?_, fun v => jsParseIntChars_eq_none_iff v.data, by decide⟩
  · intro hnone
    simp only [stepOnce, Option.elim_some]
    rw [hcr, if_neg hne, if_neg (by simp [hlf]), if_pos hline, hnone]
    rfl
  · intro n hsome
    simp only [stepOnce, Option.elim_some]
    rw [hcr, if_neg hne, if_neg (by simp [hlf]), if_pos hline, hsome]
    rfl

/-- Witness for `c3_content_length`: a concrete machine whose header set
holds `Content-Length: -5` steps into READING_BODY with contentLength `-5`
(rather than failing with InvalidContentLength). -/
theorem c3_witness :
    (jsIndexOf [13, 10, 45] 13 0 = 0 ∧ utf8Decode (jsSlice [13, 10, 45] 0 0) = "" ∧
      jsParseInt10 (headersGet "Content-Length" [("Content-Length", "-5")]) = some (-5)) ∧
    stepOnce (mkBoundaries "X") ⟨.headers, some [("Content-Length", "-5")], none, [13, 10, 45], 0⟩ =
      .cont ⟨.body, some [("Content-Length", "-5")], some (-5), [13, 10, 45], 2⟩ none :=
  ⟨⟨by decide, by decide, by decide⟩,
    (c3_content_length (mkBoundaries "X")
      ⟨.headers, some [("Content-Length", "-5")], none, [13, 10, 45], 0⟩
      [("Content-Length", "-5")] 0 rfl rfl (by decide) (by decide) (by decide)
      (by decide)).2.1 (-5) (by decide)⟩

/-- C4 (amended): the cursor invariant `0 <= cursor <= buffer length` holds
at the initial state, is restored to `cursor = 0` by every buffer rebuild,
is preserved by the end-of-source trim, and is preserved by every step of
the drain loop provided the current Content-Length (if any) is
non-negative — which is the case on every stream whose parts declare
non-negative lengths.  (The unamended claim fails: a negative declared
Content-Length drives the cursor negative, see the counterexample.) -/
theorem c4_cursor_invariant :
    (0 ≤ initMachine.pos ∧ initMachine.pos ≤ (initMachine.buf.length : Int)) ∧
    (∀ m chunk, (feed m chunk).pos = 0) ∧
    (∀ buf p, 0 ≤ p → p ≤ (buf.length : Int) →
      0 ≤ trimNewlines buf p ∧ trimNewlines buf p ≤ (buf.length : Int)) ∧
    (∀ cfg m, 0 ≤ m.pos → m.pos ≤ (m.buf.length : Int) →
      (∀ c, m.contentLength = some c → 0 ≤ c) →
      match stepOnce cfg m with
      | .suspend m' => 0 ≤ m'.pos ∧ m'.pos ≤ (m'.buf.length : Int)
      | .cont m' _ => 0 ≤ m'.pos ∧ m'.pos ≤ (m'.buf.length : Int)
      | .fail _ => True) := by
  refine ⟨⟨le_refl 0, by simp [initMachine]⟩, ?_, ?_, ?_⟩
  · intro m chunk
    unfold feed
    dsimp only
    split <;> rfl
  · intro buf p h0 h1
    exact ⟨le_trans h0 (trimNewlines_ge buf p), trimNewlines_le buf p h1⟩
  · intro cfg m h0 h1 hcl
    obtain ⟨st, mh, mcl, mbuf, mpos⟩ := m
    dsimp only at h0 h1 hcl ⊢
    cases st with
    | boundary =>
      simp only [stepOnce]
      have hp0 : 0 ≤ skipBlanks mbuf mpos := le_trans h0 (skipBlanks_ge mbuf mpos)
      have hple : skipBlanks mbuf mpos ≤ (mbuf.length : Int) := skipBlanks_le mbuf mpos h1
      by_cases hc1 : (mbuf.length : Int) < skipBlanks mbuf mpos + cfg.mid.length
      · rw [if_pos hc1]
        exact ⟨hp0, hple⟩
      · rw [if_neg hc1]
        by_cases hc2 : compareArrays
            (jsSlice mbuf (skipBlanks mbuf mpos) (skipBlanks mbuf mpos + cfg.mid.length))
            cfg.mid = true
        · rw [if_pos hc2]
          refine ⟨?_, ?_⟩ <;> (dsimp only; omega)
        · rw [if_neg hc2]
          by_cases hc3 : compareArrays
              (jsSlice mbuf (skipBlanks mbuf mpos) (skipBlanks mbuf mpos + cfg.endB.length))
              cfg.endB = true
          · rw [if_pos hc3]
            have hsl := jsSlice_length_le mbuf (skipBlanks mbuf mpos)
              (skipBlanks mbuf mpos + cfg.endB.length) hp0 hple
            have heq := (compareArrays_iff _ _).mp hc3
            rw [heq] at hsl
            refine ⟨?_, ?_⟩ <;> (dsimp only; omega)
          · rw [if_neg hc3]
            exact trivial
    | headers =>
      simp only [stepOnce]
      by_cases hc1 : jsIndexOf mbuf 13 mpos = -1 ∨
          (mbuf.length : Int) = jsIndexOf mbuf 13 mpos + 1
      · rw [if_pos hc1]
        exact ⟨h0, h1⟩
      · rw [if_neg hc1]
        by_cases hc2 : jsGetI mbuf (jsIndexOf mbuf 13 mpos + 1) ≠ some 10
        · rw [if_pos hc2]
          exact trivial
        · rw [if_neg hc2]
          push_neg at hc2
          obtain ⟨hcr0, hcr1⟩ := jsGetI_some hc2
          cases mh with
          | none => exact trivial
          | some hdrs =>
            simp only [Option.elim_some]
            by_cases hc3 : utf8Decode (jsSlice mbuf mpos (jsIndexOf mbuf 13 mpos)) = ""
            · rw [if_pos hc3]
              cases hp : jsParseInt10 (headersGet "Content-Length" hdrs) with
              | none => exact trivial
              | some n => refine ⟨?_, ?_⟩ <;> (dsimp only; omega)
            · rw [if_neg hc3]
              by_cases hc4 : strIndexOf
                    (utf8Decode (jsSlice mbuf mpos (jsIndexOf mbuf 13 mpos))) ':' =
                  ((utf8Decode (jsSlice mbuf mpos (jsIndexOf mbuf 13 mpos))).data.length : Int) ∨
                  jsCharAt (utf8Decode (jsSlice mbuf mpos (jsIndexOf mbuf 13 mpos)))
                    (strIndexOf (utf8Decode (jsSlice mbuf mpos (jsIndexOf mbuf 13 mpos))) ':' + 1)
                    ≠ some ' '
              · rw [if_pos hc4]
                exact trivial
              · rw [if_neg hc4]
                cases ha : headersAppend
                    (jsSubstring (utf8Decode (jsSlice mbuf mpos (jsIndexOf mbuf 13 mpos)))
                      0 (strIndexOf (utf8Decode (jsSlice mbuf mpos (jsIndexOf mbuf 13 mpos))) ':'))
                    (jsSubstring (utf8Decode (jsSlice mbuf mpos (jsIndexOf mbuf 13 mpos)))
                      (strIndexOf (utf8Decode (jsSlice mbuf mpos (jsIndexOf mbuf 13 mpos))) ':' + 2)
                      ((utf8Decode (jsSlice mbuf mpos (jsIndexOf mbuf 13 mpos))).data.length : Int))
                    hdrs with
                | none => exact trivial
                | some hs' => refine ⟨?_, ?_⟩ <;> (dsimp only; omega)
    | body =>
      simp only [stepOnce]
      cases mcl with
      | none => exact trivial
      | some c =>
        simp only [Option.elim_some]
        have hc0 : 0 ≤ c := hcl c rfl
        by_cases hc1 : (mbuf.length : Int) < mpos + c
        · rw [if_pos hc1]
          exact ⟨h0, h1⟩
        · rw [if_neg hc1]
          refine ⟨?_, ?_⟩ <;> (dsimp only; omega)

/-- Witness for `c4_cursor_invariant` at a concrete step: the trim clause
and the step clause applied to a concrete in-bounds machine. -/
theorem c4_witness :
    (0 ≤ (1 : Int) ∧ (1 : Int) ≤ (([13, 10, 45] : List Nat).length : Int)) ∧
    (0 ≤ trimNewlines [13, 10, 45] 1 ∧
      trimNewlines [13, 10, 45] 1 ≤ (([13, 10, 45] : List Nat).length : Int)) :=
  ⟨⟨by decide, by decide⟩,
    c4_cursor_invariant.2.2.1 [13, 10, 45] 1 (by decide) (by decide)⟩

/-! ## Claim theorems: boundary extraction (C6) -/

theorem take_ne_of_short {α : Type} {l pat : List α} {n : Nat} (hp : 0 < pat.length)
    (hlen : l.length < n + pat.length) : (l.drop n).take pat.length ≠ pat := by
  intro h
  have h1 : ((l.drop n).take pat.length).length = pat.length := by rw [h]
  simp only [List.length_take, List.length_drop] at h1
  omega

theorem idxOfFromAux_some {pat l : List Char} {fuel i r : Nat}
    (h : idxOfFromAux pat l fuel i = some r) :
    i ≤ r ∧ (l.drop r).take pat.length = pat ∧
      ∀ j, i ≤ j → j < r → (l.drop j).take pat.length ≠ pat := by
  induction fuel generalizing i with
  | zero => simp [idxOfFromAux] at h
  | succ fuel ih =>
    rw [idxOfFromAux] at h
    split at h
    · split at h
      · next hm =>
        obtain rfl : i = r := by simpa using h
        exact ⟨le_refl _, hm, fun j hj1 hj2 => absurd hj1 (by omega)⟩
      · next hm =>
        obtain ⟨h1, h2, h3⟩ := ih h
        refine ⟨by omega, h2, fun j hj1 hj2 => ?_⟩
        rcases Nat.eq_or_lt_of_le hj1 with rfl | hlt
        · exact hm
        · exact h3 j hlt hj2
    · exact absurd h (by simp)

theorem idxOfFromAux_none {pat l : List Char} (hp : 0 < pat.length) {fuel i : Nat}
    (hf : l.length + 1 ≤ fuel + i) (h : idxOfFromAux pat l fuel i = none) :
    ∀ j, i ≤ j → (l.drop j).take pat.length ≠ pat := by
  induction fuel generalizing i with
  | zero =>
    intro j hj
    exact take_ne_of_short hp (by omega)
  | succ fuel ih =>
    rw [idxOfFromAux] at h
    split at h
    · split at h
      · exact absurd h (by simp)
      · next hm =>
        intro j hj
        rcases Nat.eq_or_lt_of_le hj with rfl | hlt
        · exact hm
        · exact ih (by omega) h j hlt
    · next hc =>
      intro j hj
      exact take_ne_of_short hp (by omega)

theorem idxOfFrom_some {pat l : List Char} {start r : Nat}
    (h : idxOfFrom pat l start = some r) :
    start ≤ r ∧ (l.drop r).take pat.length = pat ∧
      ∀ j, start ≤ j → j < r → (l.drop j).take pat.length ≠ pat :=
  idxOfFromAux_some h

theorem idxOfFrom_none {pat l : List Char} (hp : 0 < pat.length) {start : Nat}
    (h : idxOfFrom pat l start = none) :
    ∀ j, start ≤ j → (l.drop j).take pat.length ≠ pat :=
  idxOfFromAux_none hp (by omega) h

/-- C6: boundary extraction succeeds iff the content type begins with
`multipart/` and `; boundary=` occurs at or after the end of that front
(any occurrence in a string with this front necessarily starts at index
at least 10); on success the token is the verbatim remainder after the
first such occurrence (no trimming at later `;`, no quote-stripping); and
on failure the whole run terminates with InvalidContentType regardless of
what the source would have delivered — no source read can influence it. -/
theorem c6_boundary_extraction :
    (∀ ct : String,
      (∃ tok, getBoundary ct = some tok) ↔
        (ct.data.take 10 = "multipart/".data ∧
          ∃ i, 10 ≤ i ∧ (ct.data.drop i).take 11 = "; boundary=".data)) ∧
    (∀ ct tok, getBoundary ct = some tok →
      ∃ u : List Char, ct.data = u ++ "; boundary=".data ++ tok.data ∧ 10 ≤ u.length ∧
        ∀ v w : List Char, ct.data = v ++ "; boundary=".data ++ w → 10 ≤ v.length →
          u.length ≤ v.length) ∧
    (∀ ct fuel chunks, getBoundary ct = none →
      runMultipart ct fuel chunks = ([], .errored .invalidContentType)) := by
  have hbp : ("; boundary=".data).length = 11 := by decide
  have hmp : ("multipart/".data).length = 10 := by decide
  refine ⟨?_, ?_, ?_⟩
  · intro ct
    constructor
    · rintro ⟨tok, htok⟩
      unfold getBoundary at htok
      split at htok
      · next hpre =>
        rw [hmp] at hpre
        refine ⟨hpre, ?_⟩
        cases hidx : idxOfFrom "; boundary=".data ct.data ("multipart/".data).length with
        | none => rw [hidx] at htok; exact absurd htok (by simp)
        | some i =>
          obtain ⟨h1, h2, _⟩ := idxOfFrom_some hidx
          rw [hbp] at h2
          rw [hmp] at h1
          exact ⟨i, h1, h2⟩
      · exact absurd htok (by simp)
    · rintro ⟨hpre, i, hi, hocc⟩
      unfold getBoundary
      rw [if_pos (by rw [hmp]; exact hpre)]
      cases hidx : idxOfFrom "; boundary=".data ct.data ("multipart/".data).length with
      | none =>
        have hno := idxOfFrom_none (by rw [hbp]; omega) hidx i (by rw [hmp]; exact hi)
        rw [hbp] at hno
        exact absurd hocc hno
      | some r => exact ⟨_, rfl⟩
  · intro ct tok htok
    unfold getBoundary at htok
    split at htok
    · next hpre =>
      cases hidx : idxOfFrom "; boundary=".data ct.data ("multipart/".data).length with
      | none => rw [hidx] at htok; exact absurd htok (by simp)
      | some i =>
        rw [hidx] at htok
        obtain rfl : tok = String.mk (ct.data.drop (i + ("; boundary=".data).length)) := by
          simpa using htok.symm
        obtain ⟨h1, h2, h3⟩ := idxOfFrom_some hidx
        rw [hmp] at h1
        have hlen : i + 11 ≤ ct.data.length := by
          have hl := congrArg List.length h2
          simp only [List.length_take, List.length_drop, hbp] at hl
          omega
        refine ⟨ct.data.take i, ?_, ?_, ?_⟩
        · show ct.data = ct.data.take i ++ "; boundary=".data ++
            ct.data.drop (i + ("; boundary=".data).length)
          have e2 : ct.data.drop i =
              "; boundary=".data ++ ct.data.drop (i + ("; boundary=".data).length) := by
            conv_lhs =>
              rw [(List.take_append_drop ("; boundary=".data).length (ct.data.drop i)).symm]
            rw [h2, List.drop_drop, Nat.add_comm]
          conv_lhs => rw [(List.take_append_drop i ct.data).symm, e2]
          rw [List.append_assoc]
        · rw [List.length_take]
          omega
        · intro v w hvw hv
          have hlv : (ct.data.drop v.length).take ("; boundary=".data).length =
              "; boundary=".data := by
            rw [hvw, List.append_assoc, List.drop_left, List.take_left]
          by_contra hcon
          push_neg at hcon
          rw [List.length_take] at hcon
          have hlt : v.length < i := by omega
          exact h3 v.length (by rw [hmp]; omega) hlt hlv
    · exact absurd htok (by simp)
  · intro ct fuel chunks hnone
    unfold runMultipart
    rw [hnone]

/-- Witness for `c6_boundary_extraction`: the failure clause applied at a
concrete non-multipart content type and concrete chunks. -/
theorem c6_witness :
    getBoundary "text/html" = none ∧
    runMultipart "text/html" 5 [[104, 105]] = ([], .errored .invalidContentType) :=
  ⟨by decide, c6_boundary_extraction.2.2 "text/html" 5 [[104, 105]] (by decide)⟩

/-! ## ASCII encoding facts -/

theorem data_append (s t : String) : (s ++ t).data = s.data ++ t.data := by
  cases s; cases t; rfl

theorem utf8Bytes_append (s t : String) :
    utf8Bytes (s ++ t) = utf8Bytes s ++ utf8Bytes t := by
  unfold utf8Bytes
  rw [data_append, List.map_append, List.flatten_append]

theorem encChar_ascii (c : Char) (h : c.toNat < 0x80) : encChar c = [c.toNat] := by
  simp [encChar, h]

theorem utf8Bytes_ascii : ∀ (cs : List Char), (∀ c ∈ cs, c.toNat < 0x80) →
    (cs.map encChar).flatten = cs.map Char.toNat := by
  intro cs
  induction cs with
  | nil => intro _; rfl
  | cons c r ih =>
    intro h
    simp only [List.map_cons, List.flatten_cons]
    rw [encChar_ascii c (h c (by simp)), ih (fun x hx => h x (by simp [hx]))]
    rfl

theorem utf8Bytes_ascii_str (s : String) (h : ∀ c ∈ s.data, c.toNat < 0x80) :
    utf8Bytes s = s.data.map Char.toNat :=
  utf8Bytes_ascii s.data h

theorem decAux_ascii : ∀ (f : Nat) (l : List Nat), l.length ≤ f →
    (∀ b ∈ l, b < 0x80) → decAux f l = l.map Char.ofNat := by
  intro f
  induction f with
  | zero =>
    intro l hl _
    rw [Nat.le_zero] at hl
    rw [List.length_eq_zero] at hl
    subst hl
    rfl
  | succ f ih =>
    intro l hl hb
    cases l with
    | nil => rfl
    | cons b r =>
      have hb0 : b < 0x80 := hb b (by simp)
      rw [decAux.eq_def]
      dsimp only
      rw [if_pos hb0, ih r (by simpa using hl) (fun x hx => hb x (by simp [hx]))]
      rfl

theorem utf8Decode_ascii (l : List Nat) (h : ∀ b ∈ l, b < 0x80) :
    utf8Decode l = String.mk (l.map Char.ofNat) := by
  have hbom : ¬ l.take 3 = [0xEF, 0xBB, 0xBF] := by
    intro heq
    cases l with
    | nil => simp at heq
    | cons b r =>
      have : b = 0xEF := by
        have := congrArg (fun x => x.head?) heq
        simpa using this
      have := h b (by simp)
      omega
  unfold utf8Decode
  rw [if_neg hbom]
  show String.mk (decAux l.length l) = String.mk (l.map Char.ofNat)
  rw [decAux_ascii l.length l (le_refl _) h]

theorem utf8_round (cs : List Char) (h : ∀ c ∈ cs, c.toNat < 0x80) :
    utf8Decode (cs.map Char.toNat) = String.mk cs := by
  rw [utf8Decode_ascii]
  · rw [List.map_map]
    congr 1
    have : ∀ c ∈ cs, (Char.ofNat ∘ Char.toNat) c = id c := by
      intro c hc
      simp [Char.ofNat_toNat]
    rw [List.map_congr_left this, List.map_id]
  · intro b hb
    obtain ⟨c, hc, rfl⟩ := List.mem_map.mp hb
    exact h c hc

/-! ## Boundary byte structure -/

theorem mid_decomp (tok : String) :
    midBytes tok = [45, 45] ++ utf8Bytes tok ++ [13, 10] := by
  unfold midBytes
  rw [utf8Bytes_append, utf8Bytes_append]
  have h1 : utf8Bytes "--" = [45, 45] := by decide
  have h2 : utf8Bytes "\r\n" = [13, 10] := by decide
  rw [h1, h2]

theorem end_decomp (tok : String) :
    endBytes tok = [45, 45] ++ utf8Bytes tok ++ [45, 45] := by
  unfold endBytes
  rw [utf8Bytes_append, utf8Bytes_append]
  have h1 : utf8Bytes "--" = [45, 45] := by decide
  rw [h1]

theorem mid_end_len (tok : String) : (midBytes tok).length = (endBytes tok).length := by
  rw [mid_decomp, end_decomp]
  simp

theorem mid_ne_end (tok : String) : midBytes tok ≠ endBytes tok := by
  rw [mid_decomp, end_decomp]
  intro h
  have h2 := List.append_cancel_left h
  simp at h2

theorem mid_len4 (tok : String) : 4 ≤ (midBytes tok).length := by
  rw [mid_decomp]
  simp only [List.append_assoc, List.length_append, List.length_cons]
  omega

/-! ## Cut lemmas: where a chunk boundary can fall in a structured stream -/

theorem cut_short {α : Type} {x y a b : List α} (h : x ++ y = a ++ b)
    (hl : x.length ≤ a.length) : x = a.take x.length ∧ y = a.drop x.length ++ b := by
  have h2 : x ++ y = a.take x.length ++ (a.drop x.length ++ b) := by
    rw [← List.append_assoc, List.take_append_drop, h]
  have hlen : x.length = (a.take x.length).length := by
    rw [List.length_take]
    omega
  exact List.append_inj h2 hlen

theorem cut_long {α : Type} {x y a b : List α} (h : x ++ y = a ++ b)
    (hl : a.length ≤ x.length) : x = a ++ x.drop a.length ∧ x.drop a.length ++ y = b := by
  obtain ⟨h1, h2⟩ := cut_short h.symm hl
  constructor
  · conv_lhs => rw [← List.take_append_drop a.length x]
    rw [← h1]
  · exact h2.symm

theorem skipB_nil : skipB [] = [] := rfl

theorem skipB_one (a : Nat) : skipB [a] = [a] := rfl

theorem skipB_front_dash {x y w : List Nat} (h : x ++ y = 45 :: 45 :: w) :
    skipB x = x := by
  match x with
  | [] => rfl
  | [a] => rfl
  | a :: b :: r =>
    have ha : a = 45 := by
      have := congrArg (fun l => l.head?) h
      simpa using this
    apply skipB_stable
    have ht : (a :: b :: r).take 2 = [a, b] := rfl
    rw [ht]
    intro hc
    simp at hc
    omega

theorem cut_blanks : ∀ (j : Nat) (x y w : List Nat), x ++ y = blanks j ++ w →
    x.length ≤ 2 * j →
    ∃ j₂, skipB x ++ y = blanks j₂ ++ w ∧ (skipB x).length ≤ 1 := by
  intro j
  induction j with
  | zero =>
    intro x y w h hl
    have hx : x = [] := by
      rw [← List.length_eq_zero]
      omega
    subst hx
    exact ⟨0, by simpa using h, by simp [skipB_nil]⟩
  | succ j ih =>
    intro x y w h hl
    match x with
    | [] => exact ⟨j + 1, by simpa using h, by simp [skipB_nil]⟩
    | [a] =>
      refine ⟨j + 1, ?_, by simp [skipB_one]⟩
      rw [skipB_one]
      exact h
    | a :: b :: r =>
      have hab : a = 13 ∧ b = 10 := by
        have h1 := congrArg (fun l => l.head?) h
        have h2 := congrArg (fun l => l.tail.head?) h
        simp [blanks] at h1 h2
        exact ⟨h1, h2⟩
      obtain ⟨rfl, rfl⟩ := hab
      have hr : r ++ y = blanks j ++ w := by
        have : (13 : Nat) :: 10 :: (r ++ y) = 13 :: 10 :: (blanks j ++ w) := by
          simpa [blanks] using h
        exact (List.cons.injEq _ _ _ _).mp ((List.cons.injEq _ _ _ _).mp this).2 |>.2
      obtain ⟨j₂, hj, hlen⟩ := ih r y w hr (by simp at hl; omega)
      exact ⟨j₂, by rwa [skipB_pair], by rwa [skipB_pair]⟩

/-! ## findIdx? facts -/

theorem findIdxQ_none_aux {α : Type} (p : α → Bool) : ∀ (l : List α) (i : Nat),
    (∀ a ∈ l, p a = false) → List.findIdx? p l i = none := by
  intro l
  induction l with
  | nil => intro i _; rfl
  | cons a r ih =>
    intro i h
    rw [List.findIdx?_cons]
    simp only [h a (by simp)]
    exact ih (i + 1) (fun x hx => h x (by simp [hx]))

theorem findIdxQ_none {α : Type} (p : α → Bool) (l : List α)
    (h : ∀ a ∈ l, p a = false) : l.findIdx? p = none :=
  findIdxQ_none_aux p l 0 h

theorem findIdxQ_append_aux {α : Type} (p : α → Bool) : ∀ (l₁ : List α) (x : α)
    (r : List α) (i : Nat), (∀ a ∈ l₁, p a = false) → p x = true →
    List.findIdx? p (l₁ ++ x :: r) i = some (i + l₁.length) := by
  intro l₁
  induction l₁ with
  | nil =>
    intro x r i _ hx
    rw [List.nil_append, List.findIdx?_cons]
    simp [hx]
  | cons a t ih =>
    intro x r i h hx
    rw [List.cons_append, List.findIdx?_cons]
    simp only [h a (by simp)]
    rw [ih x r (i + 1) (fun y hy => h y (by simp [hy])) hx]
    exact congrArg some (by simp only [List.length_cons]; omega)

theorem findIdxQ_append {α : Type} (p : α → Bool) (l₁ : List α) (x : α) (r : List α)
    (h : ∀ a ∈ l₁, p a = false) (hx : p x = true) :
    (l₁ ++ x :: r).findIdx? p = some l₁.length := by
  have := findIdxQ_append_aux p l₁ x r 0 h hx
  simpa using this

theorem SuspH_of_no13 {u : List Nat} (h : ∀ b ∈ u, b ≠ 13) : SuspH u := by
  intro i hi
  rw [findIdxQ_none _ u (fun a ha => by simp [h a ha])] at hi
  exact absurd hi (by simp)

theorem SuspH_last13 {l₁ : List Nat} (h : ∀ b ∈ l₁, b ≠ 13) : SuspH (l₁ ++ [13]) := by
  intro i hi
  rw [findIdxQ_append _ l₁ 13 [] (fun a ha => by simp [h a ha]) (by simp)] at hi
  have : i = l₁.length := by
    have := Option.some.inj hi
    omega
  subst this
  simp

theorem SuspH_nil : SuspH [] := SuspH_of_no13 (by simp)

/-! ## Headers platform facts -/

theorem httpWsChar_false {c : Char} (hge : 0x20 ≤ c.toNat) (hsp : c ≠ ' ') :
    httpWsChar c = false := by
  simp only [httpWsChar]
  rw [decide_eq_false]
  rintro (rfl | rfl | rfl | rfl)
  · exact hsp rfl
  · exact absurd hge (by decide)
  · exact absurd hge (by decide)
  · exact absurd hge (by decide)

theorem normalizeValue_id (v : String) (hv : wfValue v) : normalizeValue v = v := by
  obtain ⟨hall, hh, hl⟩ := hv
  have key : ∀ (l : List Char), (∀ c ∈ l, 0x20 ≤ c.toNat) → l.head? ≠ some ' ' →
      l.dropWhile httpWsChar = l := by
    intro l h1 h2
    cases l with
    | nil => rfl
    | cons c r =>
      have hws : httpWsChar c = false :=
        httpWsChar_false (h1 c (by simp)) (by intro hc; exact h2 (by subst hc; rfl))
      rw [List.dropWhile_cons, hws]
      simp
  unfold normalizeValue
  rw [key v.data (fun c hc => (hall c hc).1) hh]
  rw [key v.data.reverse (fun c hc => (hall c (by simpa using hc)).1)
    (by rwa [List.head?_reverse])]
  rw [List.reverse_reverse]

theorem validHeaderValue_wf (v : String) (hv : wfValue v) : validHeaderValue v = true := by
  have hn := normalizeValue_id v hv
  obtain ⟨hall, _, _⟩ := hv
  simp only [validHeaderValue, hn]
  rw [decide_eq_true_eq]
  constructor
  · rw [List.all_eq_true]
    intro c hc
    have := (hall c hc).2
    simp only [decide_eq_true_eq]
    omega
  · rw [List.all_eq_true]
    intro c hc
    have h1 := (hall c hc).1
    simp only [decide_eq_true_eq]
    omega

theorem headersAppend_wf (n v : String) (hs : HList) (hn : wfName n) (hv : wfValue v) :
    headersAppend n v hs = some (hs ++ [(n, v)]) := by
  unfold headersAppend
  rw [if_pos ⟨hn.1, validHeaderValue_wf v hv⟩, normalizeValue_id v hv]

/-! ## String parsing facts -/

theorem mk_data (s : String) : String.mk s.data = s := by
  cases s
  rfl

theorem jsSubstring_spec (l : List Char) (a b : Nat) (hab : a ≤ b) (hb : b ≤ l.length) :
    jsSubstring (String.mk l) (a : Int) (b : Int) = String.mk ((l.drop a).take (b - a)) := by
  unfold jsSubstring
  have h1 : ((a : Int)).toNat = a := Int.toNat_natCast a
  have h2 : ((b : Int)).toNat = b := Int.toNat_natCast b
  rw [h1, h2]
  show String.mk ((l.drop (min (min a l.length) (min b l.length))).take
    (max (min a l.length) (min b l.length) - min (min a l.length) (min b l.length))) = _
  rw [min_eq_left (by omega), min_eq_left hb, min_eq_left hab, max_eq_right hab]

theorem jsCharAt_mk (l : List Char) (i : Nat) :
    jsCharAt (String.mk l) (i : Int) = l.get? i := by
  unfold jsCharAt
  rw [if_neg (by omega), Int.toNat_natCast]

theorem strIndexOf_first (l₁ : List Char) (c : Char) (r : List Char)
    (h : ∀ a ∈ l₁, a ≠ c) :
    strIndexOf (String.mk (l₁ ++ c :: r)) c = (l₁.length : Int) := by
  unfold strIndexOf
  rw [show (String.mk (l₁ ++ c :: r)).data = l₁ ++ c :: r from rfl]
  rw [findIdxQ_append _ l₁ c r (fun a ha => by simp [h a ha]) (by simp)]

/-! ## Single-step behaviour of the tail machine on structured tails -/

theorem skipB_dash {u w : List Nat} (h : u = 45 :: 45 :: w) : skipB u = u :=
  skipB_front_dash (y := []) (w := w) (by simp [h])

theorem mid_cons (tok : String) (w : List Nat) :
    midBytes tok ++ w = 45 :: 45 :: (utf8Bytes tok ++ [13, 10] ++ w) := by
  rw [mid_decomp]
  simp

theorem end_cons (tok : String) (w : List Nat) :
    endBytes tok ++ w = 45 :: 45 :: (utf8Bytes tok ++ [45, 45] ++ w) := by
  rw [end_decomp]
  simp

theorem tB_short (tok : String) (hd : Option HList) (cl : Option Int) (u : List Nat)
    (h : (skipB u).length < (midBytes tok).length) :
    tstep (mkBoundaries tok) ⟨.boundary, hd, cl, u⟩ =
      .suspend ⟨.boundary, hd, cl, skipB u⟩ := by
  simp only [tstep]
  dsimp only [mkBoundaries]
  rw [if_pos h]

theorem tB_mid (tok : String) (hd : Option HList) (cl : Option Int) (u w : List Nat)
    (hskip : skipB u = midBytes tok ++ w) :
    tstep (mkBoundaries tok) ⟨.boundary, hd, cl, u⟩ =
      .cont ⟨.headers, some [], cl, w⟩ none := by
  simp only [tstep]
  dsimp only [mkBoundaries]
  rw [hskip]
  rw [if_neg (by simp)]
  rw [if_pos (List.take_left _ _), List.drop_left]

theorem tB_endB (tok : String) (hd : Option HList) (cl : Option Int) (u w : List Nat)
    (hskip : skipB u = endBytes tok ++ w) :
    tstep (mkBoundaries tok) ⟨.boundary, hd, cl, u⟩ =
      .suspend ⟨.boundary, hd, cl, w⟩ := by
  simp only [tstep]
  dsimp only [mkBoundaries]
  rw [hskip]
  rw [if_neg (by rw [mid_end_len]; simp)]
  rw [if_neg, if_pos (List.take_left _ _), List.drop_left]
  rw [show (midBytes tok).length = (endBytes tok).length from mid_end_len tok]
  rw [List.take_left]
  exact (mid_ne_end tok).symm

theorem tH_susp (tok : String) (hd : Option HList) (cl : Option Int) (u : List Nat)
    (h : SuspH u) :
    tstep (mkBoundaries tok) ⟨.headers, hd, cl, u⟩ =
      .suspend ⟨.headers, hd, cl, u⟩ := by
  simp only [tstep]
  cases hfi : u.findIdx? (fun x => x = 13) with
  | none => rfl
  | some i =>
    simp only [Option.elim]
    rw [if_pos (h i hfi)]

theorem tBody_short (tok : String) (hd : Option HList) (k : Int) (u : List Nat)
    (h0 : 0 ≤ k) (h : (u.length : Int) < k) :
    tstep (mkBoundaries tok) ⟨.body, hd, some k, u⟩ =
      .suspend ⟨.body, hd, some k, u⟩ := by
  simp only [tstep]
  dsimp only [Option.elim]
  rw [if_neg (by omega), if_pos h]

theorem tBody_consume (tok : String) (hs : HList) (body w : List Nat) :
    tstep (mkBoundaries tok) ⟨.body, some hs, some (body.length : Int), body ++ w⟩ =
      .cont ⟨.boundary, none, none, w⟩ (some ⟨hs, body⟩) := by
  simp only [tstep]
  dsimp only [Option.elim]
  rw [if_neg (by omega), if_neg (by simp)]
  rw [Int.toNat_natCast, List.drop_left, List.take_left]
  rfl

theorem tH_empty (tok : String) (cl : Option Int) (acc : HList) (w : List Nat) (n : Int)
    (h : jsParseInt10 (headersGet "Content-Length" acc) = some n) :
    tstep (mkBoundaries tok) ⟨.headers, some acc, cl, 13 :: 10 :: w⟩ =
      .cont ⟨.body, some acc, some n, w⟩ none := by
  simp only [tstep]
  have hfi : (13 :: 10 :: w).findIdx? (fun x => x = 13) = some 0 :=
    findIdxQ_append _ [] 13 (10 :: w) (by simp) (by simp)
  rw [hfi]
  simp only [Option.elim]
  rw [if_neg (by simp)]
  rw [if_neg (by simp)]
  have hline : utf8Decode ((13 :: 10 :: w).take 0) = "" := rfl
  rw [hline]
  rw [if_pos rfl, h]
  simp only [Option.elim]
  rfl

/-- The combined character list of a header line `Name: value`. -/
theorem line_data (n v : String) :
    (n ++ ": " ++ v).data = n.data ++ ':' :: ' ' :: v.data := by
  rw [data_append, data_append]
  rw [show (": " : String).data = [':', ' '] from by decide]
  simp

theorem line_ascii (n v : String) (hn : wfName n) (hv : wfValue v) :
    ∀ c ∈ n.data ++ ':' :: ' ' :: v.data, 0x20 ≤ c.toNat ∧ c.toNat < 0x80 := by
  intro c hc
  rcases List.mem_append.mp hc with h | h
  · have := hn.2 c h
    omega
  · simp only [List.mem_cons] at h
    rcases h with rfl | rfl | h
    · constructor <;> decide
    · constructor <;> decide
    · have := hv.1 c h
      omega

theorem tH_line (tok : String) (cl : Option Int) (acc : HList) (n v : String)
    (w : List Nat) (hn : wfName n) (hv : wfValue v) :
    tstep (mkBoundaries tok) ⟨.headers, some acc, cl, headerLineBytes (n, v) ++ w⟩ =
      .cont ⟨.headers, some (acc ++ [(n, v)]), cl, w⟩ none := by
  have hascii := line_ascii n v hn hv
  have hlineB : utf8Bytes (n ++ ": " ++ v) =
      (n.data ++ ':' :: ' ' :: v.data).map Char.toNat := by
    rw [utf8Bytes_ascii_str _ (by rw [line_data]; exact fun c hc => (hascii c hc).2),
      line_data]
  have htl : headerLineBytes (n, v) ++ w =
      (n.data ++ ':' :: ' ' :: v.data).map Char.toNat ++ 13 :: 10 :: w := by
    simp only [headerLineBytes, hlineB]
    rw [List.append_assoc]
    rfl
  have h13 : ∀ b ∈ (n.data ++ ':' :: ' ' :: v.data).map Char.toNat, ¬ b = 13 := by
    intro b hb
    obtain ⟨c, hc, rfl⟩ := List.mem_map.mp hb
    have := (hascii c hc).1
    omega
  rw [htl]
  simp only [tstep]
  rw [findIdxQ_append _ _ 13 (10 :: w) (fun a ha => by simp [h13 a ha]) (by simp)]
  simp only [Option.elim]
  rw [if_neg (by simp; omega)]
  have hget : ((n.data ++ ':' :: ' ' :: v.data).map Char.toNat ++ 13 :: 10 :: w).get?
      (((n.data ++ ':' :: ' ' :: v.data).map Char.toNat).length + 1) = some 10 := by
    rw [List.get?_append_right (by omega)]
    simp
  rw [if_neg (by rw [hget]; simp)]
  rw [List.take_left]
  have hline : utf8Decode ((n.data ++ ':' :: ' ' :: v.data).map Char.toNat) =
      n ++ ": " ++ v := by
    rw [utf8_round _ (fun c hc => (hascii c hc).2), ← line_data, mk_data]
  rw [hline]
  rw [if_neg (by
    intro hc
    have := congrArg String.data hc
    rw [line_data] at this
    simp at this)]
  have hcolon : strIndexOf (n ++ ": " ++ v) ':' = (n.data.length : Int) := by
    rw [show (n ++ ": " ++ v) = String.mk (n.data ++ ':' :: ' ' :: v.data) from by
      rw [← line_data, mk_data]]
    exact strIndexOf_first n.data ':' (' ' :: v.data) (fun a ha => (hn.2 a ha).2.2)
  rw [hcolon]
  have hlen : (n ++ ": " ++ v).data.length = n.data.length + 2 + v.data.length := by
    rw [line_data]
    simp only [List.length_append, List.length_cons]
    omega
  have hcharAt : jsCharAt (n ++ ": " ++ v) ((n.data.length : Int) + 1) = some ' ' := by
    rw [show ((n.data.length : Int) + 1) = ((n.data.length + 1 : Nat) : Int) from by
      push_cast; ring]
    rw [show (n ++ ": " ++ v) = String.mk (n.data ++ ':' :: ' ' :: v.data) from by
      rw [← line_data, mk_data]]
    rw [jsCharAt_mk]
    rw [List.get?_append_right (by omega)]
    simp
  rw [if_neg (by
    push_neg
    constructor
    · intro hc
      rw [hlen] at hc
      omega
    · rw [hcharAt])]
  have hname : jsSubstring (n ++ ": " ++ v) 0 (n.data.length : Int) = n := by
    rw [show (n ++ ": " ++ v) = String.mk (n.data ++ ':' :: ' ' :: v.data) from by
      rw [← line_data, mk_data]]
    rw [show (0 : Int) = ((0 : Nat) : Int) from rfl]
    rw [jsSubstring_spec _ 0 n.data.length (by omega) (by simp)]
    rw [List.drop_zero, Nat.sub_zero, List.take_left, mk_data]
  have hvalue : jsSubstring (n ++ ": " ++ v) ((n.data.length : Int) + 2)
      ((n ++ ": " ++ v).data.length : Int) = v := by
    rw [show ((n.data.length : Int) + 2) = ((n.data.length + 2 : Nat) : Int) from by
      push_cast; ring]
    rw [show (n ++ ": " ++ v) = String.mk (n.data ++ ':' :: ' ' :: v.data) from by
      rw [← line_data, mk_data]]
    rw [show (String.mk (n.data ++ ':' :: ' ' :: v.data)).data.length =
      n.data.length + 2 + v.data.length from by rw [← line_data]; exact hlen]
    rw [jsSubstring_spec _ (n.data.length + 2) (n.data.length + 2 + v.data.length)
      (by omega) (by simp only [List.length_append, List.length_cons]; omega)]
    rw [show n.data ++ ':' :: ' ' :: v.data = (n.data ++ [':', ' ']) ++ v.data from by
      simp]
    rw [show n.data.length + 2 = (n.data ++ [':', ' ']).length from by simp]
    rw [List.drop_left]
    rw [show (n.data ++ [':', ' ']).length + v.data.length -
      (n.data ++ [':', ' ']).length = v.data.length from by omega]
    rw [List.take_length, mk_data]
  rw [hname, hvalue]
  rw [headersAppend_wf n v acc hn hv]
  simp only [Option.elim]
  have hdrop : ((n.data ++ ':' :: ' ' :: v.data).map Char.toNat ++ 13 :: 10 :: w).drop
      (((n.data ++ ':' :: ' ' :: v.data).map Char.toNat).length + 2) = w := by
    rw [show ((n.data ++ ':' :: ' ' :: v.data).map Char.toNat ++ 13 :: 10 :: w) =
      (((n.data ++ ':' :: ' ' :: v.data).map Char.toNat) ++ [13, 10]) ++ w from by simp]
    rw [show ((n.data ++ ':' :: ' ' :: v.data).map Char.toNat).length + 2 =
      (((n.data ++ ':' :: ' ' :: v.data).map Char.toNat) ++ [13, 10]).length from by
        simp; omega]
    rw [List.drop_left]
  rw [hdrop]

theorem stepN_cons (cfg : Boundaries) (σ σ' σ₂ : TSt) (o : Option Part) (n : Nat)
    (ps : List Part) (h1 : tstep cfg σ = .cont σ' o)
    (h2 : stepN cfg n σ' = some (σ₂, ps)) :
    stepN cfg (n + 1) σ = some (σ₂, o.toList ++ ps) := by
  rw [stepN, h1]
  dsimp only
  rw [h2]

/-- The byte form of a well-formed header line. -/
theorem headerLineBytes_eq (n v : String) (hn : wfName n) (hv : wfValue v) :
    headerLineBytes (n, v) =
      (n.data ++ ':' :: ' ' :: v.data).map Char.toNat ++ [13, 10] := by
  have hascii := line_ascii n v hn hv
  simp only [headerLineBytes]
  rw [show ((n, v).1 ++ ": " ++ (n, v).2) = (n ++ ": " ++ v) from rfl]
  rw [utf8Bytes_ascii_str _ (by rw [line_data]; exact fun c hc => (hascii c hc).2),
    line_data]

theorem line_no13 (n v : String) (hn : wfName n) (hv : wfValue v) :
    ∀ b ∈ (n.data ++ ':' :: ' ' :: v.data).map Char.toNat, ¬ b = 13 := by
  intro b hb
  obtain ⟨c, hc, rfl⟩ := List.mem_map.mp hb
  have := (line_ascii n v hn hv c hc).1
  omega

/-! ## Drain-to-suspension progress through the phases of one part -/

theorem bodyprog (tok : String) (eb pad : Nat) (sp : SpecPart) (todo' : List SpecPart)
    (hB : ∀ x F, x ++ F = streamRest tok todo' eb pad →
      DrainsTo tok eb pad ⟨.boundary, none, none, x⟩ F todo')
    (x F : List Nat) (hx : x ++ F = sp.body ++ streamRest tok todo' eb pad) :
    DrainsTo tok eb pad ⟨.body, some sp.hdrs, some (sp.body.length : Int), x⟩ F
      (sp :: todo') := by
  by_cases hlen : x.length < sp.body.length
  · refine ⟨0, ⟨.body, some sp.hdrs, some (sp.body.length : Int), x⟩, [],
      ⟨.body, some sp.hdrs, some (sp.body.length : Int), x⟩, sp :: todo', [],
      rfl, ?_, ?_, rfl, rfl⟩
    · exact tBody_short tok (some sp.hdrs) _ x (by positivity) (by exact_mod_cast hlen)
    · exact TInv.atBody x F sp todo' hx hlen
  · push_neg at hlen
    obtain ⟨hx1, hx2⟩ := cut_long hx hlen
    have hstep : tstep (mkBoundaries tok)
        ⟨.body, some sp.hdrs, some (sp.body.length : Int), x⟩ =
        .cont ⟨.boundary, none, none, x.drop sp.body.length⟩
          (some ⟨sp.hdrs, sp.body⟩) := by
      rw [show (⟨.body, some sp.hdrs, some (sp.body.length : Int), x⟩ : TSt) =
        ⟨.body, some sp.hdrs, some (sp.body.length : Int),
          sp.body ++ x.drop sp.body.length⟩ from by rw [← hx1]]
      exact tBody_consume tok sp.hdrs sp.body _
    obtain ⟨m, σp, out, σ₂, todo₂, done, hsn, hsusp, hinv, htodo, hout⟩ :=
      hB (x.drop sp.body.length) F hx2
    refine ⟨m + 1, σp, Part.mk sp.hdrs sp.body :: out, σ₂, todo₂, sp :: done,
      ?_, hsusp, hinv, by rw [List.cons_append, htodo], by rw [hout]; rfl⟩
    have := stepN_cons (mkBoundaries tok) _ _ _ (some ⟨sp.hdrs, sp.body⟩) m out hstep hsn
    simpa using this

theorem hprog (tok : String) (eb pad : Nat) (sp : SpecPart) (todo' : List SpecPart)
    (hwf : wfPart sp)
    (hBody : ∀ x F, x ++ F = sp.body ++ streamRest tok todo' eb pad →
      DrainsTo tok eb pad ⟨.body, some sp.hdrs, some (sp.body.length : Int), x⟩ F
        (sp :: todo')) :
    ∀ (lines2 lines1 : HList), sp.hdrs = lines1 ++ lines2 → ∀ x F,
      x ++ F = headerBytes lines2 ++ [13, 10] ++ sp.body ++ streamRest tok todo' eb pad →
      DrainsTo tok eb pad ⟨.headers, some lines1, none, x⟩ F (sp :: todo') := by
  intro lines2
  induction lines2 with
  | nil =>
    intro lines1 hsplit x F hx
    have hsp : lines1 = sp.hdrs := by rw [hsplit]; simp
    subst hsp
    have hx' : x ++ F = 13 :: 10 :: (sp.body ++ streamRest tok todo' eb pad) := by
      rw [hx]
      simp [headerBytes, List.append_assoc]
    cases x with
    | nil =>
      exact ⟨0, ⟨.headers, some sp.hdrs, none, []⟩, [], ⟨.headers, some sp.hdrs, none, []⟩,
        sp :: todo', [], rfl, tH_susp tok (some sp.hdrs) none [] SuspH_nil,
        TInv.atH [] F sp todo' sp.hdrs [] hsplit hx SuspH_nil, rfl, rfl⟩
    | cons a t =>
      cases t with
      | nil =>
        have ha : a = 13 := by
          have := congrArg (fun l => l.head?) hx'
          simpa using this
        subst ha
        have hsusp : SuspH [13] := @SuspH_last13 [] (by simp)
        exact ⟨0, ⟨.headers, some sp.hdrs, none, [13]⟩, [],
          ⟨.headers, some sp.hdrs, none, [13]⟩, sp :: todo', [], rfl,
          tH_susp tok (some sp.hdrs) none [13] hsusp,
          TInv.atH [13] F sp todo' sp.hdrs [] hsplit hx hsusp, rfl, rfl⟩
      | cons b r =>
        have hab : a = 13 ∧ b = 10 := by
          have h1 := congrArg (fun l => l.head?) hx'
          have h2 := congrArg (fun l => l.tail.head?) hx'
          simp at h1 h2
          exact ⟨h1, h2⟩
        obtain ⟨rfl, rfl⟩ := hab
        have hr : r ++ F = sp.body ++ streamRest tok todo' eb pad := by
          have := congrArg (fun l => l.tail.tail) hx'
          simpa using this
        have hstep := tH_empty tok none sp.hdrs r (sp.body.length : Int) hwf.2
        obtain ⟨m, σp, out, σ₂, todo₂, done, hsn, hsusp, hinv, htodo, hout⟩ :=
          hBody r F hr
        refine ⟨m + 1, σp, out, σ₂, todo₂, done, ?_, hsusp, hinv, htodo, hout⟩
        have := stepN_cons _ _ _ _ none m out hstep hsn
        simpa using this
  | cons p lines2' ih =>
    intro lines1 hsplit x F hx
    obtain ⟨pn, pv⟩ := p
    have hwfp : wfPair (pn, pv) := hwf.1 (pn, pv) (by rw [hsplit]; simp)
    have hn : wfName pn := hwfp.1
    have hv : wfValue pv := hwfp.2
    have hlb : headerLineBytes (pn, pv) =
        (pn.data ++ ':' :: ' ' :: pv.data).map Char.toNat ++ [13, 10] :=
      headerLineBytes_eq pn pv hn hv
    set L := (pn.data ++ ':' :: ' ' :: pv.data).map Char.toNat with hL
    have hx' : x ++ F = (L ++ [13]) ++
        10 :: (headerBytes lines2' ++ [13, 10] ++ sp.body ++
          streamRest tok todo' eb pad) := by
      rw [hx]
      simp only [headerBytes, List.map_cons, List.flatten_cons]
      rw [hlb]
      simp [List.append_assoc]
    by_cases hshort : x.length ≤ L.length + 1
    · have hsusp : SuspH x := by
        obtain ⟨hx1, _⟩ := cut_short hx' (by simp; omega)
        by_cases hs2 : x.length ≤ L.length
        · apply SuspH_of_no13
          intro b hb
          have hbL : b ∈ L := by
            have hmem : b ∈ (L ++ [13]).take x.length := by rw [← hx1]; exact hb
            rw [List.take_append_of_le_length hs2] at hmem
            exact List.mem_of_mem_take hmem
          exact line_no13 pn pv hn hv b hbL
        · have hxeq : x = L ++ [13] := by
            rw [hx1, List.take_of_length_le (by simp; omega)]
          rw [hxeq]
          exact SuspH_last13 (line_no13 pn pv hn hv)
      exact ⟨0, ⟨.headers, some lines1, none, x⟩, [], ⟨.headers, some lines1, none, x⟩,
        sp :: todo', [], rfl, tH_susp tok (some lines1) none x hsusp,
        TInv.atH x F sp todo' lines1 ((pn, pv) :: lines2') hsplit hx hsusp, rfl, rfl⟩
    · push_neg at hshort
      have hxlen : (L ++ [13, 10]).length ≤ x.length := by simp; omega
      have hx'' : x ++ F = (L ++ [13, 10]) ++ (headerBytes lines2' ++ [13, 10] ++
          sp.body ++ streamRest tok todo' eb pad) := by
        rw [hx']
        simp [List.append_assoc]
      obtain ⟨hx1, hx2⟩ := cut_long hx'' hxlen
      have hstep : tstep (mkBoundaries tok) ⟨.headers, some lines1, none, x⟩ =
          .cont ⟨.headers, some (lines1 ++ [(pn, pv)]), none,
            x.drop (L ++ [13, 10]).length⟩ none := by
        rw [show (⟨.headers, some lines1, none, x⟩ : TSt) = ⟨.headers, some lines1, none,
          headerLineBytes (pn, pv) ++ x.drop (L ++ [13, 10]).length⟩ from by
            rw [hlb, ← hx1]]
        exact tH_line tok none lines1 pn pv _ hn hv
      obtain ⟨m, σp, out, σ₂, todo₂, done, hsn, hsusp, hinv, htodo, hout⟩ :=
        ih (lines1 ++ [(pn, pv)]) (by rw [hsplit]; simp) (x.drop (L ++ [13, 10]).length)
          F hx2
      refine ⟨m + 1, σp, out, σ₂, todo₂, done, ?_, hsusp, hinv, htodo, hout⟩
      have := stepN_cons _ _ _ _ none m out hstep hsn
      simpa using this

theorem bprog_post (tok : String) (eb pad : Nat) (x F : List Nat) (q : Nat)
    (hx : x ++ F = blanks q) :
    DrainsTo tok eb pad ⟨.boundary, none, none, x⟩ F [] := by
  have hxlen : x.length ≤ 2 * q := by
    have hlen := congrArg List.length hx
    rw [List.length_append, blanks_length] at hlen
    omega
  obtain ⟨j₂, hj, hl1⟩ := cut_blanks q x F [] (by rw [List.append_nil]; exact hx) hxlen
  refine ⟨0, ⟨.boundary, none, none, x⟩, [], ⟨.boundary, none, none, skipB x⟩, [], [],
    rfl, tB_short tok none none x (by have := mid_len4 tok; omega), ?_, rfl, rfl⟩
  exact TInv.postEnd (skipB x) F j₂ (by simpa using hj)

theorem bprog_end (tok : String) (eb pad : Nat) (x F : List Nat) (j q : Nat)
    (hx : x ++ F = blanks j ++ endBytes tok ++ blanks q) :
    DrainsTo tok eb pad ⟨.boundary, none, none, x⟩ F [] := by
  by_cases hshort : x.length ≤ 2 * j
  · obtain ⟨j₂, hj, hl1⟩ := cut_blanks j x F (endBytes tok ++ blanks q)
      (hx.trans (List.append_assoc _ _ _)) hshort
    refine ⟨0, ⟨.boundary, none, none, x⟩, [], ⟨.boundary, none, none, skipB x⟩, [], [],
      rfl, tB_short tok none none x (by have := mid_len4 tok; omega), ?_, rfl, rfl⟩
    exact TInv.atEnd (skipB x) F j₂ q (hj.trans (List.append_assoc _ _ _).symm)
      (by rw [skipB_idem]; have := mid_len4 tok; omega)
  · push_neg at hshort
    have h2j : (blanks j).length ≤ x.length := by rw [blanks_length]; omega
    obtain ⟨hx1, hx2⟩ := cut_long (hx.trans (List.append_assoc _ _ _)) h2j
    set x' := x.drop (blanks j).length with hxdef
    have hskipx : skipB x = skipB x' := by rw [hx1, skipB_blanks]
    have hdash : skipB x' = x' := skipB_front_dash (hx2.trans (end_cons tok _))
    by_cases hend : x'.length < (midBytes tok).length
    · refine ⟨0, ⟨.boundary, none, none, x⟩, [], ⟨.boundary, none, none, x'⟩, [], [],
        rfl, ?_, ?_, rfl, rfl⟩
      · have := tB_short tok none none x (by rw [hskipx, hdash]; exact hend)
        rw [hskipx, hdash] at this
        exact this
      · exact TInv.atEnd x' F 0 q (by simpa [blanks] using hx2) (by rw [hdash]; exact hend)
    · push_neg at hend
      have hmle : (endBytes tok).length ≤ x'.length := by rw [← mid_end_len]; exact hend
      obtain ⟨hy1, hy2⟩ := cut_long hx2 hmle
      refine ⟨0, ⟨.boundary, none, none, x⟩, [],
        ⟨.boundary, none, none, x'.drop (endBytes tok).length⟩, [], [], rfl, ?_, ?_,
        rfl, rfl⟩
      · apply tB_endB tok none none x _
        rw [hskipx, hdash]
        exact hy1
      · exact TInv.postEnd _ F q hy2

theorem bprog (tok : String) (eb pad : Nat) : ∀ (k : Nat) (todo : List SpecPart),
    todo.length ≤ k → (∀ sp ∈ todo, wfPart sp) → ∀ x F,
    ((∃ sp todo_r j, todo = sp :: todo_r ∧
        x ++ F = blanks j ++ midBytes tok ++ partTail tok sp todo_r eb pad) ∨
     (todo = [] ∧ ∃ j q, x ++ F = blanks j ++ endBytes tok ++ blanks q) ∨
     (todo = [] ∧ ∃ q, x ++ F = blanks q)) →
    DrainsTo tok eb pad ⟨.boundary, none, none, x⟩ F todo := by
  intro k
  induction k with
  | zero =>
    intro todo hlen hwf x F hcase
    have htodo : todo = [] := by rw [← List.length_eq_zero]; omega
    subst htodo
    rcases hcase with ⟨sp, todo_r, j, heq, _⟩ | ⟨_, j, q, hx⟩ | ⟨_, q, hx⟩
    · exact absurd heq (by simp)
    · exact bprog_end tok eb pad x F j q hx
    · exact bprog_post tok eb pad x F q hx
  | succ k ih =>
    intro todo hlen hwf x F hcase
    rcases hcase with ⟨sp, todo_r, j, rfl, hx⟩ | ⟨rfl, j, q, hx⟩ | ⟨rfl, q, hx⟩
    · have hwfsp : wfPart sp := hwf sp (by simp)
      have hB : ∀ y G, y ++ G = streamRest tok todo_r eb pad →
          DrainsTo tok eb pad ⟨.boundary, none, none, y⟩ G todo_r := by
        intro y G hy
        apply ih todo_r (by simp at hlen; omega) (fun s hs => hwf s (by simp [hs]))
        cases todo_r with
        | nil =>
          right; left
          refine ⟨rfl, eb, pad, ?_⟩
          rw [hy]
          simp [streamRest, encParts, List.append_assoc]
        | cons sp2 todo2 =>
          left
          refine ⟨sp2, todo2, sp2.blanks, rfl, ?_⟩
          rw [hy]
          simp [streamRest, encParts, encPart, partTail, List.append_assoc]
      by_cases hshort : x.length ≤ 2 * j
      · obtain ⟨j₂, hj, hl1⟩ := cut_blanks j x F
          (midBytes tok ++ partTail tok sp todo_r eb pad)
          (hx.trans (List.append_assoc _ _ _)) hshort
        refine ⟨0, ⟨.boundary, none, none, x⟩, [], ⟨.boundary, none, none, skipB x⟩,
          sp :: todo_r, [], rfl,
          tB_short tok none none x (by have := mid_len4 tok; omega), ?_, rfl, rfl⟩
        exact TInv.atB (skipB x) F j₂ sp todo_r (hj.trans (List.append_assoc _ _ _).symm)
          (by rw [skipB_idem]; have := mid_len4 tok; omega)
      · push_neg at hshort
        have h2j : (blanks j).length ≤ x.length := by rw [blanks_length]; omega
        obtain ⟨hx1, hx2⟩ := cut_long (hx.trans (List.append_assoc _ _ _)) h2j
        set x' := x.drop (blanks j).length with hxdef
        have hskipx : skipB x = skipB x' := by rw [hx1, skipB_blanks]
        have hdash : skipB x' = x' := skipB_front_dash (hx2.trans (mid_cons tok _))
        by_cases hmid : x'.length < (midBytes tok).length
        · refine ⟨0, ⟨.boundary, none, none, x⟩, [], ⟨.boundary, none, none, x'⟩,
            sp :: todo_r, [], rfl, ?_, ?_, rfl, rfl⟩
          · have := tB_short tok none none x (by rw [hskipx, hdash]; exact hmid)
            rw [hskipx, hdash] at this
            exact this
          · exact TInv.atB x' F 0 sp todo_r (by simpa [blanks, List.append_assoc] using hx2)
              (by rw [hdash]; exact hmid)
        · push_neg at hmid
          obtain ⟨hy1, hy2⟩ := cut_long hx2 hmid
          have hstep : tstep (mkBoundaries tok) ⟨.boundary, none, none, x⟩ =
              .cont ⟨.headers, some [], none, x'.drop (midBytes tok).length⟩ none := by
            apply tB_mid
            rw [hskipx, hdash]
            exact hy1
          have hpt : partTail tok sp todo_r eb pad = headerBytes sp.hdrs ++ [13, 10] ++
              sp.body ++ streamRest tok todo_r eb pad := rfl
          have hH := hprog tok eb pad sp todo_r hwfsp
            (fun y G hy => bodyprog tok eb pad sp todo_r hB y G hy)
            sp.hdrs [] (by simp) (x'.drop (midBytes tok).length) F (hpt ▸ hy2)
          obtain ⟨m, σp, out, σ₂, todo₂, done, hsn, hsusp, hinv, htodo, hout⟩ := hH
          refine ⟨m + 1, σp, out, σ₂, todo₂, done, ?_, hsusp, hinv, htodo, hout⟩
          have := stepN_cons _ _ _ _ none m out hstep hsn
          simpa using this
    · exact bprog_end tok eb pad x F j q hx
    · exact bprog_post tok eb pad x F q hx

/-- Entry point of `bprog` for a between-parts position: the tail plus the
future bytes spell the remaining §6 stream. -/
theorem bprog_rest (tok : String) (eb pad : Nat) (todo : List SpecPart)
    (hwf : ∀ sp ∈ todo, wfPart sp) : ∀ y G, y ++ G = streamRest tok todo eb pad →
    DrainsTo tok eb pad ⟨.boundary, none, none, y⟩ G todo := by
  intro y G hy
  apply bprog tok eb pad todo.length todo (le_refl _) hwf
  cases todo with
  | nil =>
    right; left
    refine ⟨rfl, eb, pad, ?_⟩
    rw [hy]
    simp [streamRest, encParts, List.append_assoc]
  | cons sp2 todo2 =>
    left
    refine ⟨sp2, todo2, sp2.blanks, rfl, ?_⟩
    rw [hy]
    simp [streamRest, encParts, encPart, partTail, List.append_assoc]

/-- Feeding a chunk to an invariant-satisfying suspended state drains to a new
invariant-satisfying suspension, emitting the parts that became complete. -/
theorem chunk_step (tok : String) (eb pad : Nat) (σ : TSt) (c F' : List Nat)
    (todo : List SpecPart) (hwf : ∀ sp ∈ todo, wfPart sp)
    (hinv : TInv tok eb pad σ (c ++ F') todo) :
    DrainsTo tok eb pad (extendT σ c) F' todo := by
  cases hinv with
  | atB u F j sp todo' h hs =>
    apply bprog tok eb pad (sp :: todo').length _ (le_refl _) hwf
    left
    exact ⟨sp, todo', j, rfl, (List.append_assoc u c F').trans h⟩
  | atH u F sp todo' lines1 lines2 hsplit h hs =>
    exact hprog tok eb pad sp todo' (hwf sp (by simp))
      (fun y G hy => bodyprog tok eb pad sp todo'
        (bprog_rest tok eb pad todo' (fun s hs2 => hwf s (by simp [hs2]))) y G hy)
      lines2 lines1 hsplit (u ++ c) F' ((List.append_assoc u c F').trans h)
  | atBody u F sp todo' h hs =>
    exact bodyprog tok eb pad sp todo'
      (bprog_rest tok eb pad todo' (fun s hs2 => hwf s (by simp [hs2])))
      (u ++ c) F' ((List.append_assoc u c F').trans h)
  | atEnd u F j pad' h hs =>
    exact bprog_end tok eb pad (u ++ c) F' j pad' ((List.append_assoc u c F').trans h)
  | postEnd u F k h =>
    exact bprog_post tok eb pad (u ++ c) F' k ((List.append_assoc u c F').trans h)

theorem processBuf_mono (cfg : Boundaries) : ∀ (f : Nat) (m : PMachine)
    (r : List Part × DrainEnd), processBuf cfg f m = some r → ∀ g, f ≤ g →
    processBuf cfg g m = some r := by
  intro f
  induction f with
  | zero => intro m r h; simp [processBuf] at h
  | succ f ih =>
    intro m r h g hg
    obtain ⟨g', rfl⟩ : ∃ g', g = g' + 1 := ⟨g - 1, by omega⟩
    rw [processBuf] at h ⊢
    cases hts : stepOnce cfg m with
    | suspend m' => rw [hts] at h; exact h
    | fail e => rw [hts] at h; exact h
    | cont m' out =>
      rw [hts] at h
      dsimp only at h ⊢
      cases htd : processBuf cfg f m' with
      | none => rw [htd] at h; exact absurd h (by simp)
      | some pe =>
        rw [htd] at h
        rw [ih m' pe htd g' (by omega)]
        exact h

/-- At end of stream (no future bytes), the invariant forces the post-end
configuration: everything emitted, boundary state, only blank padding left. -/
theorem tinv_terminal (tok : String) (eb pad : Nat) (σ : TSt) (todo : List SpecPart)
    (hwf : ∀ sp ∈ todo, wfPart sp) (hinv : TInv tok eb pad σ [] todo) :
    todo = [] ∧ ∃ k, σ = ⟨.boundary, none, none, blanks k⟩ := by
  cases hinv with
  | postEnd u F k h =>
    rw [List.append_nil] at h
    subst h
    exact ⟨rfl, k, rfl⟩
  | atB u F j sp todo' h hs =>
    exfalso
    rw [List.append_nil] at h
    subst h
    rw [List.append_assoc, skipB_blanks, skipB_dash (mid_cons tok _)] at hs
    rw [List.length_append] at hs
    omega
  | atEnd u F j pad' h hs =>
    exfalso
    rw [List.append_nil] at h
    subst h
    rw [List.append_assoc, skipB_blanks, skipB_dash (end_cons tok _)] at hs
    rw [List.length_append, mid_end_len] at hs
    omega
  | atBody u F sp todo' h hs =>
    exfalso
    rw [List.append_nil] at h
    have hl := congrArg List.length h
    rw [List.length_append] at hl
    omega
  | atH u F sp todo' lines1 lines2 hsplit h hs =>
    exfalso
    rw [List.append_nil] at h
    subst h
    cases lines2 with
    | nil =>
      have hre : headerBytes ([] : HList) ++ [13, 10] ++ sp.body ++
          streamRest tok todo' eb pad =
          [] ++ 13 :: (10 :: (sp.body ++ streamRest tok todo' eb pad)) := by
        simp [headerBytes, List.append_assoc]
      have hfi : (headerBytes ([] : HList) ++ [13, 10] ++ sp.body ++
          streamRest tok todo' eb pad).findIdx? (fun x => x = 13) = some 0 := by
        rw [hre]
        exact findIdxQ_append _ [] 13 _ (by simp) (by simp)
      have hcontra := hs 0 hfi
      rw [hre] at hcontra
      simp at hcontra
    | cons p lines2' =>
      obtain ⟨pn, pv⟩ := p
      have hwfp : wfPair (pn, pv) := (hwf sp (by simp)).1 (pn, pv) (by rw [hsplit]; simp)
      have hlb := headerLineBytes_eq pn pv hwfp.1 hwfp.2
      have hre : headerBytes ((pn, pv) :: lines2') ++ [13, 10] ++ sp.body ++
          streamRest tok todo' eb pad =
          ((pn.data ++ ':' :: ' ' :: pv.data).map Char.toNat) ++
            13 :: (10 :: (headerBytes lines2' ++ [13, 10] ++ sp.body ++
              streamRest tok todo' eb pad)) := by
        simp only [headerBytes, List.map_cons, List.flatten_cons]
        rw [hlb]
        simp [List.append_assoc]
      have hfi : (headerBytes ((pn, pv) :: lines2') ++ [13, 10] ++ sp.body ++
          streamRest tok todo' eb pad).findIdx? (fun x => x = 13) =
          some ((pn.data ++ ':' :: ' ' :: pv.data).map Char.toNat).length := by
        rw [hre]
        exact findIdxQ_append _ _ 13 _
          (fun a ha => by simp [line_no13 pn pv hwfp.1 hwfp.2 a ha]) (by simp)
      have hcontra := hs _ hfi
      rw [hre] at hcontra
      simp only [List.length_append, List.length_cons] at hcontra
      omega

/-- Main run invariant: from a suspended machine related to an
invariant-satisfying tail state whose future bytes are exactly the remaining
chunks, the read loop emits the remaining parts and closes. -/
theorem run_inv (tok : String) (eb pad : Nat) : ∀ (chunks : List (List Nat))
    (m : PMachine) (σ : TSt) (todo : List SpecPart), rel m σ →
    TInv tok eb pad σ chunks.flatten todo → (∀ sp ∈ todo, wfPart sp) →
    ∃ fuel₀, ∀ fuel, fuel₀ ≤ fuel →
      runFrom (mkBoundaries tok) fuel m chunks = (todo.map canonPart, .closed) := by
  intro chunks
  induction chunks with
  | nil =>
    intro m σ todo hrel hinv hwf
    obtain ⟨rfl, k, rfl⟩ := tinv_terminal tok eb pad σ todo hwf (by simpa using hinv)
    obtain ⟨hst, hh, hcl, hpos0, hposle, htl⟩ := hrel
    refine ⟨0, fun fuel _ => ?_⟩
    have htrim : ¬ ((m.buf.length : Int) - trimNewlines m.buf m.pos > 0) := by
      apply trimNewlines_all m.buf m.pos hpos0 hposle
      rw [← htl]
      exact blanks_all_nl k
    rw [runFrom, if_pos ⟨hst.symm, htrim⟩]
    rfl
  | cons c cs ih =>
    intro m σ todo hrel hinv hwf
    rw [List.flatten_cons] at hinv
    obtain ⟨n, σp, out, σ₂, todo₂, done, hsn, hsusp, hinv₂, htodo, hout⟩ :=
      chunk_step tok eb pad σ c cs.flatten todo hwf hinv
    have htd1 : tdrain (mkBoundaries tok) 1 σp = some ([], .more σ₂) := by
      show tdrain (mkBoundaries tok) (0 + 1) σp = some ([], .more σ₂)
      rw [tdrain, hsusp]
    have htdn : tdrain (mkBoundaries tok) (n + 1) (extendT σ c) =
        some (out, .more σ₂) := by
      have := tdrain_of_steps (mkBoundaries tok) n (extendT σ c) σp out 1 []
        (.more σ₂) hsn htd1
      simpa using this
    have hrelx : rel (feed m c) (extendT σ c) := feed_rel m σ c hrel
    have hsim := tdrain_sim (mkBoundaries tok) (n + 1) (feed m c) (extendT σ c) hrelx
    rw [htdn] at hsim
    obtain ⟨m₁, hpb1, hrel₁⟩ := hsim
    have hwf₂ : ∀ sp ∈ todo₂, wfPart sp := fun s hs =>
      hwf s (by rw [htodo]; exact List.mem_append_right _ hs)
    obtain ⟨fuel₁, hfuel₁⟩ := ih m₁ σ₂ todo₂ hrel₁ hinv₂ hwf₂
    refine ⟨max (n + 1) fuel₁, fun fuel hf => ?_⟩
    have hpb : processBuf (mkBoundaries tok) fuel (feed m c) =
        some (out, .more m₁) :=
      processBuf_mono _ (n + 1) _ _ hpb1 fuel (le_trans (le_max_left _ _) hf)
    rw [runFrom, hpb]
    dsimp only
    rw [hfuel₁ fuel (le_trans (le_max_right _ _) hf)]
    rw [htodo, hout, List.map_append]

theorem tinv_init (tok : String) (eb pad : Nat) (ps : List SpecPart) (F : List Nat)
    (hF : F = encStream tok ps eb pad) :
    TInv tok eb pad ⟨.boundary, none, none, []⟩ F ps := by
  cases ps with
  | nil =>
    apply TInv.atEnd [] F eb pad
    · rw [hF]
      simp [encStream, streamRest, encParts, List.append_assoc]
    · rw [skipB_nil]
      have := mid_len4 tok
      simp
      omega
  | cons sp ps' =>
    apply TInv.atB [] F sp.blanks sp ps'
    · rw [hF]
      simp [encStream, streamRest, encParts, encPart, partTail, List.append_assoc]
    · rw [skipB_nil]
      have := mid_len4 tok
      simp
      omega

theorem rel_init : rel initMachine ⟨.boundary, none, none, []⟩ :=
  ⟨rfl, rfl, rfl, le_refl 0, by simp [initMachine], by simp [initMachine]⟩

/-- The shared valid-stream theorem: any chunking of a §6 stream with pair
padding parses to the canonical part list and closes. -/
theorem run_valid (tok : String) (ps : List SpecPart) (eb pad : Nat)
    (hwf : ∀ sp ∈ ps, wfPart sp) (chunks : List (List Nat))
    (hchunks : chunks.flatten = encStream tok ps eb pad) :
    ∃ fuel₀, ∀ fuel, fuel₀ ≤ fuel →
      runFrom (mkBoundaries tok) fuel initMachine chunks =
        (ps.map canonPart, .closed) :=
  run_inv tok eb pad chunks initMachine ⟨.boundary, none, none, []⟩ ps rel_init
    (tinv_init tok eb pad ps chunks.flatten hchunks) hwf

theorem trimNlF_complete (buf : List Nat) : ∀ (f : Nat) (p : Int), 0 ≤ p →
    p ≤ (buf.length : Int) → (buf.length : Int) - trimNlF f buf p ≤ 0 →
    ∀ b ∈ buf.drop p.toNat, b = 10 ∨ b = 13 := by
  intro f
  induction f with
  | zero =>
    intro p h0 hle htr
    simp only [trimNlF] at htr
    intro b hb
    rw [List.drop_eq_nil_of_le (by omega)] at hb
    simp at hb
  | succ f ih =>
    intro p h0 hle htr
    rw [trimNlF] at htr
    by_cases hcond : (buf.length : Int) - p > 0 ∧
        (jsGetI buf p = some 10 ∨ jsGetI buf p = some 13)
    · rw [if_pos hcond] at htr
      obtain ⟨hlt, hbyte⟩ := hcond
      intro b hb
      have hdecomp : buf.drop p.toNat = buf[p.toNat] :: buf.drop (p.toNat + 1) :=
        List.drop_eq_getElem_cons (by omega)
      rw [hdecomp] at hb
      rcases List.mem_cons.mp hb with rfl | hb2
      · have hg : jsGetI buf p = some buf[p.toNat] := by
          unfold jsGetI
          rw [if_neg (by omega)]
          exact List.get?_eq_getElem? _ _ ▸ (List.getElem?_eq_getElem (by omega))
        rcases hbyte with hx | hx
        · left; have := hg.symm.trans hx; simpa using this
        · right; have := hg.symm.trans hx; simpa using this
      · have := ih (p + 1) (by omega) (by omega) htr
        apply this
        have : (p + 1).toNat = p.toNat + 1 := by omega
        rw [this]
        exact hb2
    · rw [if_neg hcond] at htr
      intro b hb
      rw [List.drop_eq_nil_of_le (by omega)] at hb
      simp at hb

theorem trim_iff (buf : List Nat) (p : Int) (h0 : 0 ≤ p)
    (hle : p ≤ (buf.length : Int)) :
    (¬ ((buf.length : Int) - trimNewlines buf p > 0)) ↔
      ∀ b ∈ buf.drop p.toNat, b = 10 ∨ b = 13 := by
  constructor
  · intro h
    exact trimNlF_complete buf ((buf.length : Int) - p).toNat p h0 hle
      (by unfold trimNewlines at h; omega)
  · intro h
    exact trimNewlines_all buf p h0 hle h

/-- C1 (amended): for every §6-conformant multipart byte stream — well-formed
parts, each declaring `Content-Length` equal to its body length, the
end-boundary followed only by `\r\n` blank-line padding — and for every way of
splitting that stream into delivery chunks (including one byte per chunk and
empty chunks), the read loop emits exactly the canonical Parts, with identical
headers and bodies, in order, and closes successfully; the output is therefore
identical no matter how the stream is chunked.  (The original claim's
arbitrary CR/LF padding is refuted by `c1_counterexample`: lone-LF padding
parses differently under different chunkings.) -/
theorem c1_chunk_invariance (tok : String) (ps : List SpecPart) (eb pad : Nat)
    (hwf : ∀ sp ∈ ps, wfPart sp) (chunks : List (List Nat))
    (hchunks : chunks.flatten = encStream tok ps eb pad) :
    ∃ fuel₀, ∀ fuel, fuel₀ ≤ fuel →
      runFrom (mkBoundaries tok) fuel initMachine chunks =
        (ps.map canonPart, .closed) :=
  run_valid tok ps eb pad hwf chunks hchunks

/-- Witness for `c1_chunk_invariance`: a concrete one-part stream split into
two chunks at a position inside the header line. -/
theorem c1_witness :
    (∀ sp ∈ [(⟨0, [("Content-Length", "5")], [104, 101, 108, 108, 111]⟩ : SpecPart)],
      wfPart sp) ∧
    ([(encStream "X" [⟨0, [("Content-Length", "5")], [104, 101, 108, 108, 111]⟩] 0 1).take 10,
      (encStream "X" [⟨0, [("Content-Length", "5")], [104, 101, 108, 108, 111]⟩] 0 1).drop 10].flatten =
      encStream "X" [⟨0, [("Content-Length", "5")], [104, 101, 108, 108, 111]⟩] 0 1) ∧
    (∃ fuel₀, ∀ fuel, fuel₀ ≤ fuel →
      runFrom (mkBoundaries "X") fuel initMachine
        [(encStream "X" [⟨0, [("Content-Length", "5")], [104, 101, 108, 108, 111]⟩] 0 1).take 10,
         (encStream "X" [⟨0, [("Content-Length", "5")], [104, 101, 108, 108, 111]⟩] 0 1).drop 10] =
      ([(⟨0, [("Content-Length", "5")], [104, 101, 108, 108, 111]⟩ : SpecPart)].map canonPart,
        .closed)) := by
  have hwf : ∀ sp ∈ [(⟨0, [("Content-Length", "5")],
      [104, 101, 108, 108, 111]⟩ : SpecPart)], wfPart sp := by
    intro sp hsp
    simp only [List.mem_singleton] at hsp
    subst hsp
    refine ⟨?_, by decide⟩
    intro p hp
    simp only [List.mem_singleton] at hp
    subst hp
    exact ⟨⟨by decide, by decide⟩, by decide, by decide, by decide⟩
  exact ⟨hwf, by simp,
    c1_chunk_invariance "X"
      [⟨0, [("Content-Length", "5")], [104, 101, 108, 108, 111]⟩] 0 1 hwf
      _ (by simp)⟩

/-- C2 (amended): end-of-source behaviour.  When the source is exhausted the
run terminates at once, emitting no further Parts, and exactly one of two ways:
it closes successfully precisely when the parser is in AWAITING_BOUNDARY and
every unconsumed byte is CR or LF (the trailing-padding trim consumes them
all); in every other situation it fails with TruncatedStream.  (The original
claim's assertion that bytes following the end-boundary cause TruncatedStream
is refuted by `c2_counterexample`: bytes delivered after the end-boundary are
re-parsed as a new boundary instead.) -/
theorem c2_end_of_source (cfg : Boundaries) (fuel : Nat) (m : PMachine)
    (h0 : 0 ≤ m.pos) (hle : m.pos ≤ (m.buf.length : Int)) :
    (runFrom cfg fuel m [] = ([], .closed) ∨
     runFrom cfg fuel m [] = ([], .errored .truncatedStream)) ∧
    (runFrom cfg fuel m [] = ([], .closed) ↔
      (m.state = .boundary ∧ ∀ b ∈ m.buf.drop m.pos.toNat, b = 10 ∨ b = 13)) := by
  by_cases hcond : m.state = .boundary ∧
      ¬ ((m.buf.length : Int) - trimNewlines m.buf m.pos > 0)
  · rw [runFrom, if_pos hcond]
    refine ⟨Or.inl rfl, ?_⟩
    constructor
    · intro _
      exact ⟨hcond.1, (trim_iff m.buf m.pos h0 hle).mp hcond.2⟩
    · intro _
      rfl
  · rw [runFrom, if_neg hcond]
    refine ⟨Or.inr rfl, ?_⟩
    constructor
    · intro hcl
      exact absurd hcl (by simp)
    · rintro ⟨hst, hall⟩
      exact absurd ⟨hst, (trim_iff m.buf m.pos h0 hle).mpr hall⟩ hcond

/-- Witness for `c2_end_of_source`: a machine suspended in AWAITING_BOUNDARY
with a two-byte CR LF tail. -/
theorem c2_witness :
    (0 : Int) ≤ (⟨.boundary, none, none, [13, 10], 0⟩ : PMachine).pos ∧
    (⟨.boundary, none, none, [13, 10], 0⟩ : PMachine).pos ≤
      (((⟨.boundary, none, none, [13, 10], 0⟩ : PMachine).buf.length : Int)) ∧
    ((runFrom ⟨[45], [45]⟩ 3 ⟨.boundary, none, none, [13, 10], 0⟩ [] = ([], .closed) ∨
      runFrom ⟨[45], [45]⟩ 3 ⟨.boundary, none, none, [13, 10], 0⟩ [] =
        ([], .errored .truncatedStream)) ∧
     (runFrom ⟨[45], [45]⟩ 3 ⟨.boundary, none, none, [13, 10], 0⟩ [] = ([], .closed) ↔
       ((⟨.boundary, none, none, [13, 10], 0⟩ : PMachine).state = .boundary ∧
        ∀ b ∈ (⟨.boundary, none, none, [13, 10], 0⟩ : PMachine).buf.drop
          (⟨.boundary, none, none, [13, 10], 0⟩ : PMachine).pos.toNat,
          b = 10 ∨ b = 13))) :=
  ⟨by decide, by decide,
    c2_end_of_source ⟨[45], [45]⟩ 3 ⟨.boundary, none, none, [13, 10], 0⟩
      (by decide) (by decide)⟩

/-- C7: encoding an ordered list of (headers, body) pairs into the §6 wire
format with a boundary token — each part well formed and carrying a
`Content-Length` set that parses to its body length — and parsing the result
yields exactly one Part per pair, with the header pairs in original insertion
order (duplicates preserved as distinct entries) and bodies byte-identical to
the originals, after which the sequence closes. -/
theorem c7_round_trip (tok : String) (prs : List (HList × List Nat)) (eb pad : Nat)
    (hwf : ∀ pr ∈ prs, (∀ p ∈ pr.1, wfPair p) ∧
      jsParseInt10 (headersGet "Content-Length" pr.1) = some (pr.2.length : Int)) :
    ∃ fuel₀, ∀ fuel, fuel₀ ≤ fuel →
      runFrom (mkBoundaries tok) fuel initMachine
        [encStream tok (prs.map (fun pr => ⟨0, pr.1, pr.2⟩)) eb pad] =
      (prs.map (fun pr => ⟨pr.1, pr.2⟩), .closed) := by
  have h := run_valid tok (prs.map (fun pr => ⟨0, pr.1, pr.2⟩)) eb pad
    (by
      intro sp hsp
      obtain ⟨pr, hpr, rfl⟩ := List.mem_map.mp hsp
      exact ⟨(hwf pr hpr).1, (hwf pr hpr).2⟩)
    [encStream tok (prs.map (fun pr => ⟨0, pr.1, pr.2⟩)) eb pad] (by simp)
  have hmap : (prs.map (fun pr => (⟨0, pr.1, pr.2⟩ : SpecPart))).map canonPart =
      prs.map (fun pr => (⟨pr.1, pr.2⟩ : Part)) := by
    rw [List.map_map]
    rfl
  rw [hmap] at h
  exact h

/-- Witness for `c7_round_trip`: one pair with duplicate-free headers and an
empty body. -/
theorem c7_witness :
    (∀ pr ∈ [(([("Content-Length", "0")], []) : HList × List Nat)],
      (∀ p ∈ pr.1, wfPair p) ∧
      jsParseInt10 (headersGet "Content-Length" pr.1) = some ((pr.2.length : Nat) : Int)) ∧
    (∃ fuel₀, ∀ fuel, fuel₀ ≤ fuel →
      runFrom (mkBoundaries "B") fuel initMachine
        [encStream "B"
          ([(([("Content-Length", "0")], []) : HList × List Nat)].map
            (fun pr => ⟨0, pr.1, pr.2⟩)) 0 0] =
      ([(([("Content-Length", "0")], []) : HList × List Nat)].map
        (fun pr => ⟨pr.1, pr.2⟩), .closed)) := by
  have hwf : ∀ pr ∈ [(([("Content-Length", "0")], []) : HList × List Nat)],
      (∀ p ∈ pr.1, wfPair p) ∧
      jsParseInt10 (headersGet "Content-Length" pr.1) = some ((pr.2.length : Nat) : Int) := by
    intro pr hpr
    simp only [List.mem_singleton] at hpr
    subst hpr
    refine ⟨?_, by decide⟩
    intro p hp
    simp only [List.mem_singleton] at hp
    subst hp
    exact ⟨⟨by decide, by decide⟩, by decide, by decide, by decide⟩
  exact ⟨hwf, c7_round_trip "B" [([("Content-Length", "0")], [])] 0 0 hwf⟩

end Multipart
